import Mathlib

/-!
# Verification of the unpadded-sequence detector and renamer

A shallow embedding of `find_unpadded_sequences.py` and (for the leaf-directory
comparison) `make_cbz.py`.  Filenames and paths are Lean `String`s, directory
listings are lists of names, and the filesystem mutated by the rename executor
is a `Finset String` of existing paths.  Python's unbounded non-negative ints
(numeric filename tokens) are `Nat`.
-/

set_option maxRecDepth 4000

/-- Split a character list around its last maximal run of decimal digits:
`some (pre, run, post)` with `s = pre ++ run ++ post`, `run` a nonempty digit
run, `post` digit-free and `pre` not ending in a digit; `none` when `s` has no
digit.  This locates the token `NUM_RE.findall(s)[-1]` of
`extract_number_token` together with the replacement position of
`re.sub(r"(\d+)(?!.*\d)", ..., s)` in `make_new_name` (the unique run not
followed by any further digit). -/
def lastRunSplit (s : List Char) : Option (List Char × List Char × List Char) :=
  let r := s.reverse
  let post := r.takeWhile (fun c => !c.isDigit)
  let rest := r.dropWhile (fun c => !c.isDigit)
  match rest with
  | [] => none
  | _ :: _ =>
    some ((rest.dropWhile Char.isDigit).reverse,
          (rest.takeWhile Char.isDigit).reverse,
          post.reverse)

/-- Decimal value of a digit string; embeds Python `int(s)` on the digit-only
strings produced by `NUM_RE`. -/
def decValue (l : List Char) : Nat :=
  l.foldl (fun a c => 10 * a + (c.toNat - '0'.toNat)) 0

/-- Embeds Python `s.zfill(width)` for digit-only strings: left-pad with zeros
to `width`; a string already at least `width` long is unchanged. -/
def zfill (width : Nat) (s : List Char) : List Char :=
  List.replicate (width - s.length) '0' ++ s

/-- Split a (reversed) character list at its first `'.'`: `some (a, b)` when
the list is `a ++ '.' :: b` with `a` dot-free; `none` when there is no dot.
Helper for the embedding of `pathlib`'s stem/suffix split (`rfind('.')`). -/
def revSplit : List Char → Option (List Char × List Char)
  | [] => none
  | c :: rest =>
    if c = '.' then some ([], rest)
    else (revSplit rest).map (fun p => (c :: p.1, p.2))

/-- Embeds `pathlib`'s `(Path(n).stem, Path(n).suffix)`: the name splits at the
last `'.'` provided that dot is neither the first nor the last character;
otherwise the stem is the whole name and the suffix empty. -/
def splitExt (n : String) : String × String :=
  match revSplit n.data.reverse with
  | some (a, b) =>
    if a.isEmpty || b.isEmpty then (n, "")
    else (⟨b.reverse⟩, ⟨'.' :: a.reverse⟩)
  | none => (n, "")

/-- `Path(n).stem`. -/
def stemOf (n : String) : String := (splitExt n).1

/-- `Path(n).suffix`. -/
def suffixOf (n : String) : String := (splitExt n).2

/-- Embeds `extract_number_token`: `(int_value, token_str)` for the last
numeric token of the name, or `none` if there is no digit. -/
def extract_number_token (name : String) : Option (Nat × String) :=
  match lastRunSplit name.data with
  | none => none
  | some (_, run, _) => some (decValue run, ⟨run⟩)

/-- Strict lexicographic comparison of character lists by code point; the
order Python uses to compare `str`s. -/
def listLtChars : List Char → List Char → Bool
  | [], [] => false
  | [], _ :: _ => true
  | _ :: _, [] => false
  | a :: as, b :: bs => if a < b then true else if b < a then false else listLtChars as bs

/-- `a < b` on strings, by code points. -/
def strLt (a b : String) : Bool := listLtChars a.data b.data

/-- `a <= b` on strings, by code points; the total preorder of Python's
`sorted` on filenames. -/
def strLe (a b : String) : Bool := !(strLt b a)

/-- `name.startswith('.')`. -/
def isHidden (n : String) : Bool :=
  match n.data with
  | [] => false
  | c :: _ => c == '.'

/-- Insert into a sorted list, before the first element not below `a`. -/
def insortBy (le : α → α → Bool) (a : α) : List α → List α
  | [] => [a]
  | b :: l => if le a b then a :: b :: l else b :: insortBy le a l

/-- Insertion sort modelling Python's `sorted(..., key=...)`.  (Python's sort
is stable, but every comparison key used below determines the whole element,
so ties only arise between identical elements and any sort agrees with the
stable one.) -/
def sortBy (le : α → α → Bool) : List α → List α
  | [] => []
  | a :: l => insortBy le a (sortBy le l)

/-- The direct non-hidden files of a directory in sorted order: embeds
`[p for p in sorted(d.iterdir()) if p.is_file() and not p.name.startswith('.')]`
given the list of the directory's file names. -/
def filesOf (names : List String) : List String :=
  (sortBy strLe names).filter (fun n => !isHidden n)

/-- An analyzer entry `(path, int_value, token_str)` of `analyze_dir`. -/
abbrev SeqEntry := String × Nat × String

/-- The entry list of `analyze_dir`: each sorted non-hidden file whose stem has
a numeric token, with its value and token string. -/
def entriesOf (names : List String) : List SeqEntry :=
  (filesOf names).filterMap
    (fun n => (extract_number_token (stemOf n)).map (fun vt => (n, vt.1, vt.2)))

/-- `lex_order`: entry names sorted by filename string (a stable sort by the
key `x[0].name`). -/
def lex_orderOf (names : List String) : List String :=
  (sortBy (fun a b => strLe a.1 b.1) (entriesOf names)).map (·.1)

/-- Sort key of `numeric_order`: lexicographic on `(int_value, name)`. -/
def numLe (a b : SeqEntry) : Bool :=
  decide (a.2.1 < b.2.1) || (decide (a.2.1 = b.2.1) && strLe a.1 b.1)

/-- `numeric_order`: entry names sorted by `(int_value, name)`. -/
def numeric_orderOf (names : List String) : List String :=
  (sortBy numLe (entriesOf names)).map (·.1)

/-- The integer values of the entries (`nums`). -/
def numsOf (names : List String) : List Nat :=
  (entriesOf names).map (·.2.1)

/-- Python `min` over a nonempty list (`0` on `[]`, where Python raises). -/
def listMin : List Nat → Nat
  | [] => 0
  | x :: xs => xs.foldl Nat.min x

/-- Python `max` over a nonempty list (`0` on `[]`, where Python raises). -/
def listMax : List Nat → Nat
  | [] => 0
  | x :: xs => xs.foldl Nat.max x

/-- `sorted(set(l))`: the distinct values in increasing order. -/
def sortedUnique (l : List Nat) : List Nat :=
  sortBy (fun a b => decide (a ≤ b)) l.dedup

/-- The contiguity check of `analyze_dir`:
`expected_count == len(unique_nums) and unique_nums == list(range(min_n, max_n + 1))`. -/
def consecutiveOf (names : List String) : Bool :=
  let nums := numsOf names
  let expected := listMax nums - listMin nums + 1
  let u := sortedUnique nums
  expected == u.length && u == List.range' (listMin nums) expected

/-- The token string lengths of the entries (`token_lengths`). -/
def token_lengthsOf (names : List String) : List Nat :=
  (entriesOf names).map (fun e => e.2.2.length)

/-- `len(str(n))` for a natural number: its decimal digit count. -/
def digitsCount (n : Nat) : Nat := (Nat.repr n).length

/-- `desired_width = len(str(max_n))`. -/
def desired_widthOf (names : List String) : Nat :=
  digitsCount (listMax (numsOf names))

/-- `fully_padded = len(set(token_lengths)) == 1 and token_lengths[0] == desired_width`. -/
def fully_paddedOf (names : List String) : Bool :=
  let tl := token_lengthsOf names
  tl.dedup.length == 1 && tl.headD 0 == desired_widthOf names

/-- The report dictionary produced by `analyze_dir`. -/
structure Report where
  dir : String
  count : Nat
  min : Nat
  max : Nat
  desired_width : Nat
  token_lengths_sample : List Nat
  lex_order_sample : List String
  numeric_order_sample : List String
deriving Repr, DecidableEq

/-- Embeds `analyze_dir(d, min_files)` given the names of the directory's
direct files: report the directory iff at least `min_files` files carry a
numeric token, the values are consecutive, and lexicographic order differs
from numeric order while the tokens are not fully padded.  This models the
non-raising executions only; the `ValueError` that `min(nums)` raises on an
empty entry list passing the guards (possible just for `min_files = 0`) is
made explicit in `analyze_dir_exc` below. -/
def analyze_dir (dir : String) (names : List String) (min_files : Nat) : Option Report :=
  if (filesOf names).length < min_files then none
  else if (entriesOf names).length < min_files then none
  else if consecutiveOf names = false then none
  else if lex_orderOf names ≠ numeric_orderOf names ∧ fully_paddedOf names = false then
    some {
      dir := dir
      count := (entriesOf names).length
      min := listMin (numsOf names)
      max := listMax (numsOf names)
      desired_width := desired_widthOf names
      token_lengths_sample := sortedUnique (token_lengthsOf names)
      lex_order_sample := (lex_orderOf names).take 10
      numeric_order_sample := (numeric_orderOf names).take 10 }
  else none

/-- Embeds `make_new_name(old, width)`: zero-pad the last numeric token of the
stem to `width` and substitute it back, keeping the suffix; a name without a
digit is returned unchanged. -/
def make_new_name (old : String) (width : Nat) : String :=
  let stem := stemOf old
  match lastRunSplit stem.data with
  | none => old
  | some (pre, last, post) => ⟨pre ++ zfill width last ++ post⟩ ++ suffixOf old

/-- The rename mapping built by `main` for one directory (lines 215-232): the
recomputed entries, each paired with its padded name, no-op pairs omitted. -/
def plan_mappings (names : List String) (width : Nat) : List (String × String) :=
  (entriesOf names).filterMap (fun e =>
    let dst := make_new_name e.1 width
    if e.1 ≠ dst then some (e.1, dst) else none)

/-- The set of filenames after the renames of a mapping are carried out:
each source is replaced by its destination, other names are untouched. -/
def applyMapping (mapping : List (String × String)) (names : List String) : List String :=
  names.map (fun n =>
    match mapping.find? (fun p => p.1 == n) with
    | some p => p.2
    | none => n)

/-! ## The safe rename executor (`perform_renames`)

The filesystem is the finite set of existing paths.  `os.rename` is modelled
by `renameStep`; an environment-injected failure flag per call models the I/O
errors (permissions, disk full, concurrent deletion) a real rename can raise,
and a rename of a missing source fails deterministically.  The unpredictable
uuid temporary names of phase 1 are passed in as a list `tmps`, and the two
failure-flag lists `o1`/`o2` cover the phase-1 and phase-2 calls. -/

/-- The set of existing paths. -/
abbrev FS := Finset String

/-- One `rename` call: fails (`none`) when the environment injects a failure
or the source does not exist; otherwise the source path is replaced by the
destination path (which is overwritten if present, as POSIX `os.rename`). -/
def renameStep (fs : FS) (src dst : String) (envFail : Bool) : Option FS :=
  if envFail = true ∨ src ∉ fs then none
  else some (insert dst (fs.erase src))

/-- Phase 1 of `perform_renames`: rename every source to its temporary name,
accumulating `temp_map`.  Returns the filesystem reached, the `temp_map`
entries completed, and whether the phase ran to completion; on the first
failing call it stops with the filesystem as it stands. -/
def runPhase1 (fs : FS) : List ((String × String) × String × Bool) → FS × List (String × String) × Bool
  | [] => (fs, [], true)
  | (p, tmp, fail) :: rest =>
    match renameStep fs p.1 tmp fail with
    | none => (fs, [], false)
    | some fs1 =>
      match runPhase1 fs1 rest with
      | (fs2, tm, ok) => (fs2, (tmp, p.2) :: tm, ok)

/-- Phase 2 of `perform_renames`: for each `(temp, dst)` re-check that the
destination is not an unforced foreign existing file, then rename the
temporary to the destination, counting successes; the first raise stops the
phase with the filesystem as it stands. -/
def runPhase2 (srcs : Finset String) (force : Bool) (fs : FS) :
    List ((String × String) × Bool) → FS × Nat × Bool
  | [] => (fs, 0, true)
  | (td, fail) :: rest =>
    if td.2 ∈ fs ∧ td.2 ∉ srcs ∧ force = false then (fs, 0, false)
    else
      match renameStep fs td.1 td.2 fail with
      | none => (fs, 0, false)
      | some fs1 =>
        match runPhase2 srcs force fs1 rest with
        | (fs2, s, ok) => (fs2, s + 1, ok)

/-- The `try` block of `perform_renames` (the two-phase rename), with the
`except` clause folded in: an exception in either phase yields the counts
`(succeeded, len(mapping) - succeeded)` with no rollback. -/
def livePhases (fs : FS) (srcs : Finset String) (force : Bool)
    (mapping : List (String × String)) (tmps : List String) (o1 o2 : List Bool) :
    FS × Nat × Nat :=
  match runPhase1 fs (mapping.zip (tmps.zip o1)) with
  | (fs1, temp_map, true) =>
    match runPhase2 srcs force fs1 (temp_map.zip o2) with
    | (fs2, succ, true) => (fs2, succ, 0)
    | (fs2, succ, false) => (fs2, succ, mapping.length - succ)
  | (fs1, _, false) => (fs1, 0, mapping.length)

/-- Embeds `perform_renames(mapping, dry_run, force)` on the path set `fs`:
pre-flight validation raises (`Except.error`) on duplicate destinations or an
unforced existing foreign destination; a dry run changes nothing and returns
`(0, 0)`; otherwise the two-phase rename runs and returns the final path set
with the `(succeeded, failed)` counts. -/
def perform_renames (fs : FS) (mapping : List (String × String)) (dry_run force : Bool)
    (tmps : List String) (o1 o2 : List Bool) : Except String (FS × Nat × Nat) :=
  let dsts := mapping.map Prod.snd
  if dsts.length ≠ dsts.dedup.length then
    .error "Duplicate destination filenames detected; aborting to avoid data loss."
  else
    let srcs := (mapping.map Prod.fst).toFinset
    if mapping.any (fun p => decide (p.2 ∈ fs) && decide (p.2 ∉ srcs) && !force) then
      .error "Destination already exists and --force not given"
    else if dry_run then .ok (fs, 0, 0)
    else .ok (livePhases fs srcs force mapping tmps o1 o2)

/-! ## The filesystem tree, leaf directories and `main` -/

/-- A filesystem tree entry: a file or a directory with its children. -/
inductive Entry where
  | file (name : String) : Entry
  | dir (name : String) (children : List Entry) : Entry

/-- `p.is_dir()`. -/
def isDirE : Entry → Bool
  | .file _ => false
  | .dir _ _ => true

/-- The name of an entry. -/
def nameOf : Entry → String
  | .file n => n
  | .dir n _ => n

mutual

/-- Whether `sub.rglob('*')` starting at a directory would meet a file; for a
file entry the entry itself counts.  A directory node satisfies it iff some
child subtree contains a file. -/
def subtreeHasFile : Entry → Bool
  | .file _ => true
  | .dir _ cs => anyHasFile cs

/-- `cs.any subtreeHasFile`, unfolded for structural recursion. -/
def anyHasFile : List Entry → Bool
  | [] => false
  | c :: cs => subtreeHasFile c || anyHasFile cs

end

/-- Embeds `is_leaf_dir(d)`: false for a non-directory; a directory is a leaf
iff no child directory's subtree contains a file (direct files are ignored). -/
def is_leaf_dir : Entry → Bool
  | .file _ => false
  | .dir _ cs =>
    cs.all (fun sub =>
      match sub with
      | .file _ => true
      | .dir _ cs1 => !(anyHasFile cs1))

mutual

/-- The strict descendant directories of an entry. -/
def subdirsRec : Entry → List Entry
  | .file _ => []
  | .dir _ cs => subdirsOfList cs

/-- The descendant directories contributed by a child list. -/
def subdirsOfList : List Entry → List Entry
  | [] => []
  | .file _ :: cs => subdirsOfList cs
  | .dir m cs1 :: cs => Entry.dir m cs1 :: (subdirsOfList cs1 ++ subdirsOfList cs)

end

/-- The names of the direct file children of an entry (its `iterdir()`
restricted to files). -/
def directFiles : Entry → List String
  | .file _ => []
  | .dir _ cs => cs.filterMap (fun c =>
      match c with
      | .file n => some n
      | .dir _ _ => none)

mutual

/-- The directories visited by `os.walk(root)` (the root, if a directory, and
every descendant directory, top-down); also the directory list
`[root] + [p for p in root.rglob('*') if p.is_dir()]` of `find_problem_dirs`. -/
def walkDirs : Entry → List Entry
  | .file _ => []
  | .dir n cs => Entry.dir n cs :: walkList cs

/-- The walk of a child list. -/
def walkList : List Entry → List Entry
  | [] => []
  | c :: cs => walkDirs c ++ walkList cs

end

/-- `make_cbz`'s direct file count of a directory:
`len([f for f in filenames if not f.startswith('.')])`. -/
def directCountNH (e : Entry) : Nat :=
  ((directFiles e).filter (fun n => !isHidden n)).length

mutual

/-- `make_cbz`'s total file count under an entry: the walk of the subtree
summing the non-hidden direct file names of every directory. -/
def totalCountNH : Entry → Nat
  | .file n => if isHidden n then 0 else 1
  | .dir _ cs => totalListNH cs

/-- The total count over a child list. -/
def totalListNH : List Entry → Nat
  | [] => 0
  | c :: cs => totalCountNH c + totalListNH cs

end

/-- Embeds `find_leaf_dirs(root, include_empty)` of `make_cbz.py`: every walked
directory that is not skipped (no direct non-hidden file and `include_empty`
unset) and whose total file count equals its direct file count. -/
def find_leaf_dirs (root : Entry) (include_empty : Bool) : List Entry :=
  (walkDirs root).filter (fun d =>
    !(directCountNH d == 0 && !include_empty) && totalCountNH d == directCountNH d)

mutual

/-- No file anywhere in the tree is hidden (dot-prefixed). -/
def noHiddenFiles : Entry → Bool
  | .file n => !isHidden n
  | .dir _ cs => allNoHidden cs

/-- `noHiddenFiles` over a child list. -/
def allNoHidden : List Entry → Bool
  | [] => true
  | c :: cs => noHiddenFiles c && allNoHidden cs

end

/-! ## `main` of the detection tool -/

/-- Join a directory path and a child name. -/
def childPath (base name : String) : String := base ++ "/" ++ name

mutual

/-- The walked directories of a tree together with their paths. -/
def walkP (p : String) : Entry → List (String × Entry)
  | .file _ => []
  | .dir n cs => (p, Entry.dir n cs) :: walkPList p cs

/-- `walkP` over a child list under a base path. -/
def walkPList (p : String) : List Entry → List (String × Entry)
  | [] => []
  | c :: cs => walkP (childPath p (nameOf c)) c ++ walkPList p cs

end

/-- Embeds `find_problem_dirs(root, min_files)`: analyze every leaf directory
of the tree and collect the reports. -/
def find_problem_dirs (rootPath : String) (root : Entry) (min_files : Nat) : List Report :=
  (walkP rootPath root).filterMap (fun q =>
    if is_leaf_dir q.2 then analyze_dir q.1 (directFiles q.2) min_files else none)

mutual

/-- The set of file paths of a tree, the entry itself sitting at path `p`. -/
def pathsOf (p : String) : Entry → Finset String
  | .file _ => {p}
  | .dir _ cs => pathsOfList p cs

/-- The file paths of a child list under a base path. -/
def pathsOfList (p : String) : List Entry → Finset String
  | [] => ∅
  | c :: cs => pathsOf (childPath p (nameOf c)) c ∪ pathsOfList p cs

end

/-- `Path(r['dir']).iterdir()` during the rename phase of `main`: look the
flagged directory up again by its path. -/
def lookupDir (rootPath : String) (root : Entry) (p : String) : Option Entry :=
  ((walkP rootPath root).find? (fun q => q.1 == p)).map (·.2)

/-- The parsed command-line arguments of the detection tool. -/
structure Args where
  min_files : Nat
  json : Bool
  rename : Bool
  width : Option Nat
  dry_run : Bool
  force : Bool

/-- The tail of `main` after `results = find_problem_dirs(...)` (line 192):
the JSON branch, the report-only branches, and the rename branch which
recomputes each flagged directory's entries, builds the full-path mapping
with the padded names (no-ops omitted), and hands it to `perform_renames`;
a pre-flight failure exits with code 2. -/
def mainRest (args : Args) (rootPath : String) (root : Entry) (results : List Report)
    (tmps : List String) (o1 o2 : List Bool) : Nat × FS × Bool :=
  if args.json then (0, pathsOf rootPath root, true)
  else if results.isEmpty then (0, pathsOf rootPath root, false)
  else if !args.rename then (0, pathsOf rootPath root, false)
  else
    let all_mappings := results.flatMap (fun r =>
      match lookupDir rootPath root r.dir with
      | none => []
      | some d =>
        let entries := entriesOf (directFiles d)
        if entries.isEmpty then []
        else
          let max_n := listMax (entries.map (·.2.1))
          let width := args.width.getD (digitsCount max_n)
          entries.filterMap (fun e =>
            let dst := make_new_name e.1 width
            if e.1 ≠ dst then some (childPath r.dir e.1, childPath r.dir dst) else none))
    if all_mappings.isEmpty then (0, pathsOf rootPath root, false)
    else
      match perform_renames (pathsOf rootPath root) all_mappings args.dry_run args.force tmps o1 o2 with
      | .ok res => (0, res.1, false)
      | .error _ => (2, pathsOf rootPath root, false)

/-- Embeds `main` of `find_unpadded_sequences.py` on a filesystem tree.
Returns the exit code, the final set of file paths, and whether the JSON
report was printed.  This models the runs in which `find_problem_dirs`
returns normally; `mainRun_exc` below also carries its `ValueError` path. -/
def mainRun (args : Args) (rootPath : String) (root : Entry)
    (tmps : List String) (o1 o2 : List Bool) : Nat × FS × Bool :=
  mainRest args rootPath root (find_problem_dirs rootPath root args.min_files) tmps o1 o2

/-- `analyze_dir` with Python's error path made explicit: an entry list that
is empty yet passes both `min_files` guards (possible only for
`min_files = 0`) reaches `min(nums)` on line 71, which raises `ValueError`;
every other run returns as `analyze_dir` does. -/
def analyze_dir_exc (dir : String) (names : List String) (min_files : Nat) :
    Except Unit (Option Report) :=
  if (filesOf names).length < min_files then .ok none
  else if (entriesOf names).length < min_files then .ok none
  else if entriesOf names = [] then .error ()
  else if consecutiveOf names = false then .ok none
  else if lex_orderOf names ≠ numeric_orderOf names ∧ fully_paddedOf names = false then
    .ok (some {
      dir := dir
      count := (entriesOf names).length
      min := listMin (numsOf names)
      max := listMax (numsOf names)
      desired_width := desired_widthOf names
      token_lengths_sample := sortedUnique (token_lengthsOf names)
      lex_order_sample := (lex_orderOf names).take 10
      numeric_order_sample := (numeric_orderOf names).take 10 })
  else .ok none

/-- The scan loop of `find_problem_dirs` with exception propagation: the
first raising `analyze_dir` call aborts the walk and the exception escapes. -/
def collectReports (min_files : Nat) : List (String × Entry) → Except Unit (List Report)
  | [] => .ok []
  | q :: rest =>
    if is_leaf_dir q.2 then
      match analyze_dir_exc q.1 (directFiles q.2) min_files with
      | .error e => .error e
      | .ok none => collectReports min_files rest
      | .ok (some r) => (collectReports min_files rest).map (fun l => r :: l)
    else collectReports min_files rest

/-- `find_problem_dirs(root, min_files)` with the `ValueError` of
`analyze_dir` propagated instead of collapsed. -/
def find_problem_dirs_exc (rootPath : String) (root : Entry) (min_files : Nat) :
    Except Unit (List Report) :=
  collectReports min_files (walkP rootPath root)

/-- `main` with the uncaught `ValueError` of `find_problem_dirs` (called on
line 192, before the `--json` branch) made explicit.  Only that call can
crash `main`: the rename phase guards its `max` with `if not entries` and
catches `perform_renames` errors, so `main` either raises inside
`find_problem_dirs` or runs to completion as `mainRest`. -/
def mainRun_exc (args : Args) (rootPath : String) (root : Entry)
    (tmps : List String) (o1 o2 : List Bool) : Except Unit (Nat × FS × Bool) :=
  match find_problem_dirs_exc rootPath root args.min_files with
  | .error e => .error e
  | .ok results => .ok (mainRest args rootPath root results tmps o1 o2)

/-! ## Theorems -/

theorem analyze_dir_exc_ok_of_pos (d : String) (ns : List String) (mf : Nat)
    (hmf : 0 < mf) :
    analyze_dir_exc d ns mf = Except.ok (analyze_dir d ns mf) := by
  unfold analyze_dir_exc analyze_dir
  by_cases h1 : (filesOf ns).length < mf
  · rw [if_pos h1, if_pos h1]
  · rw [if_neg h1, if_neg h1]
    by_cases h2 : (entriesOf ns).length < mf
    · rw [if_pos h2, if_pos h2]
    · rw [if_neg h2, if_neg h2]
      have hne : ¬ entriesOf ns = [] := by
        intro h0
        apply h2
        rw [h0]
        exact hmf
      rw [if_neg hne]
      by_cases h3 : consecutiveOf ns = false
      · rw [if_pos h3, if_pos h3]
      · rw [if_neg h3, if_neg h3]
        by_cases h4 : lex_orderOf ns ≠ numeric_orderOf ns ∧ fully_paddedOf ns = false
        · rw [if_pos h4, if_pos h4]
        · rw [if_neg h4, if_neg h4]

theorem collectReports_ok_of_pos (mf : Nat) (hmf : 0 < mf) :
    ∀ l : List (String × Entry),
      collectReports mf l = Except.ok (l.filterMap (fun q =>
        if is_leaf_dir q.2 then analyze_dir q.1 (directFiles q.2) mf else none)) := by
  intro l
  induction l with
  | nil => rfl
  | cons q rest ih =>
    rw [collectReports, List.filterMap_cons]
    by_cases hl : is_leaf_dir q.2 = true
    · rw [if_pos hl, if_pos hl, analyze_dir_exc_ok_of_pos _ _ _ hmf]
      cases ha : analyze_dir q.1 (directFiles q.2) mf with
      | none => exact ih
      | some r => rw [ih]; rfl
    · rw [if_neg hl, if_neg hl]
      exact ih

theorem find_problem_dirs_exc_ok_of_pos (rootPath : String) (root : Entry) (mf : Nat)
    (hmf : 0 < mf) :
    find_problem_dirs_exc rootPath root mf =
      Except.ok (find_problem_dirs rootPath root mf) := by
  unfold find_problem_dirs_exc find_problem_dirs
  exact collectReports_ok_of_pos mf hmf _

/-- C10 counterexample: with `--json --min-files 0` on a tree whose root is a
leaf directory holding one file with no digits in its name, the entry list is
empty but passes both guards, so `analyze_dir` reaches `min(nums)` and raises
`ValueError`; the exception escapes `find_problem_dirs` (line 192), which
runs before the `--json` branch, so `main` crashes instead of printing JSON
and returning 0. -/
theorem json_mode_crash_counterexample :
    (⟨0, true, false, none, false, false⟩ : Args).json = true ∧
    mainRun_exc ⟨0, true, false, none, false, false⟩ "r"
      (Entry.dir "r" [Entry.file "a.txt"]) [] [] [] = Except.error () := by
  exact ⟨rfl, rfl⟩

/-- C10 amended: with `--json` set and a positive `--min-files` (the argparse
default is 2), `main` prints the JSON report and returns exit code 0 with the
filesystem untouched, even when `--rename` is also given; with
`--min-files 0` the `find_problem_dirs` call can raise before the JSON
branch. -/
theorem json_mode_no_mutation (args : Args) (rootPath : String) (root : Entry)
    (tmps : List String) (o1 o2 : List Bool) (hj : args.json = true)
    (hmf : 0 < args.min_files) :
    mainRun_exc args rootPath root tmps o1 o2 =
      Except.ok (0, pathsOf rootPath root, true) := by
  unfold mainRun_exc
  rw [find_problem_dirs_exc_ok_of_pos rootPath root args.min_files hmf]
  simp [mainRest, hj]

theorem json_mode_no_mutation_witness :
    mainRun_exc ⟨2, true, true, none, false, false⟩ "r"
        (Entry.dir "r" [Entry.file "a1.jpg", Entry.file "a2.jpg"]) [] [] [] =
      Except.ok
        ((0 : Nat), pathsOf "r" (Entry.dir "r" [Entry.file "a1.jpg", Entry.file "a2.jpg"]), true) :=
  json_mode_no_mutation ⟨2, true, true, none, false, false⟩ "r"
    (Entry.dir "r" [Entry.file "a1.jpg", Entry.file "a2.jpg"]) [] [] [] rfl (by decide)

/-- C4: a mapping with duplicate destinations, or with a destination existing
on disk that is not among the mapping's sources while `force` is unset, makes
`perform_renames` raise during pre-flight validation, before any rename
(the result is an error irrespective of the dry-run flag, the temporary names
and the rename outcomes, and no filesystem state is produced). -/
theorem preflight_rejects_before_mutation (fs : FS) (mapping : List (String × String))
    (dry_run force : Bool) (tmps : List String) (o1 o2 : List Bool)
    (h : ¬ (mapping.map Prod.snd).Nodup ∨
      ∃ p ∈ mapping, p.2 ∈ fs ∧ p.2 ∉ (mapping.map Prod.fst).toFinset ∧ force = false) :
    ∃ msg, perform_renames fs mapping dry_run force tmps o1 o2 = Except.error msg := by
  unfold perform_renames
  by_cases hdup : (mapping.map Prod.snd).length ≠ (mapping.map Prod.snd).dedup.length
  · exact ⟨_, by rw [if_pos hdup]⟩
  · have hnd : (mapping.map Prod.snd).Nodup := by
      have hsub := List.dedup_sublist (mapping.map Prod.snd)
      have hlen : (mapping.map Prod.snd).dedup.length = (mapping.map Prod.snd).length := by
        omega
      have := hsub.eq_of_length hlen
      rw [← this]
      exact (mapping.map Prod.snd).nodup_dedup
    rcases h with h | ⟨p, hp, hin, hnotin, hforce⟩
    · exact absurd hnd h
    · have hany : (mapping.any fun p =>
          decide (p.2 ∈ fs) && decide (p.2 ∉ (mapping.map Prod.fst).toFinset) && !force) = true := by
        rw [List.any_eq_true]
        exact ⟨p, hp, by simp [hin, hnotin, hforce]⟩
      exact ⟨_, by rw [if_neg hdup, if_pos hany]⟩

theorem preflight_rejects_before_mutation_witness :
    ∃ msg, perform_renames ({"d"} : Finset String) [("x", "d")] false false [] [] [] =
      Except.error msg :=
  preflight_rejects_before_mutation {"d"} [("x", "d")] false false [] [] []
    (Or.inr ⟨("x", "d"), by decide, by decide, by decide, rfl⟩)

/-- C5 counterexample: a mapping with duplicate destinations raises even in a
dry run, so dry-run `perform_renames` does not return `(0, 0)` for every
mapping. -/
theorem dry_run_error_counterexample :
    perform_renames (∅ : Finset String) [("a", "c"), ("b", "c")] true false [] [] [] =
      Except.error "Duplicate destination filenames detected; aborting to avoid data loss." := by
  rfl

/-- C5 amended: for every mapping that passes pre-flight validation (pairwise
distinct destinations, and no destination that exists on disk outside the
mapping's own sources without `force`), a dry run mutates nothing — the path
set is returned unchanged, no temporary name is created — and returns
`(0 succeeded, 0 failed)` rather than an error. -/
theorem dry_run_valid_mapping_ok (fs : FS) (mapping : List (String × String))
    (force : Bool) (tmps : List String) (o1 o2 : List Bool)
    (h1 : (mapping.map Prod.snd).Nodup)
    (h2 : ∀ p ∈ mapping, ¬(p.2 ∈ fs ∧ p.2 ∉ (mapping.map Prod.fst).toFinset ∧ force = false)) :
    perform_renames fs mapping true force tmps o1 o2 = Except.ok (fs, 0, 0) := by
  unfold perform_renames
  have hdup : ¬ (mapping.map Prod.snd).length ≠ (mapping.map Prod.snd).dedup.length := by
    rw [List.dedup_eq_self.mpr h1]
    omega
  have hany : (mapping.any fun p =>
      decide (p.2 ∈ fs) && decide (p.2 ∉ (mapping.map Prod.fst).toFinset) && !force) = false := by
    rw [← Bool.not_eq_true, List.any_eq_true]
    rintro ⟨p, hp, hcond⟩
    simp only [Bool.and_eq_true, decide_eq_true_eq, Bool.not_eq_true'] at hcond
    exact h2 p hp ⟨hcond.1.1, hcond.1.2, hcond.2⟩
  rw [if_neg hdup, if_neg (by simp only [hany]; exact Bool.false_ne_true), if_pos rfl]

theorem dry_run_valid_mapping_ok_witness :
    perform_renames ({"a"} : Finset String) [("a", "b")] true false [] [] [] =
      Except.ok (({"a"} : Finset String), 0, 0) :=
  dry_run_valid_mapping_ok {"a"} [("a", "b")] false [] [] [] (by decide) (by decide)

/-- C2 counterexample: the directory `{010.jpg, 9.jpg}` is flagged (max 10,
desired width 2), yet after applying the planner's mapping with width 2 (only
`9.jpg -> 09.jpg`; `010.jpg` is a no-op since `zfill` never truncates) the
resulting directory `{010.jpg, 09.jpg}` is flagged again: the round trip does
not reach a fixed point. -/
theorem roundtrip_reflag_counterexample :
    (analyze_dir "d" ["010.jpg", "9.jpg"] 2).map Report.max = some 10 ∧
    (analyze_dir "d" ["010.jpg", "9.jpg"] 2).map Report.desired_width = some 2 ∧
    plan_mappings ["010.jpg", "9.jpg"] (digitsCount 10) = [("9.jpg", "09.jpg")] ∧
    (analyze_dir "d" (applyMapping (plan_mappings ["010.jpg", "9.jpg"] (digitsCount 10))
        ["010.jpg", "9.jpg"]) 2).isSome = true := by
  decide

/-- C3 counterexample: `a1.jpg` and `a01.jpg` are distinct files whose stems
both carry the value 1, yet `analyze_dir` on `{a1.jpg, a01.jpg, b0.jpg}` does
not return null — it flags the directory (the contiguity check compares the
distinct values {0, 1} with the range [0, 1] and passes). -/
theorem duplicate_values_flagged_counterexample :
    extract_number_token (stemOf "a1.jpg") = some (1, "1") ∧
    extract_number_token (stemOf "a01.jpg") = some (1, "01") ∧
    ("a1.jpg" : String) ≠ "a01.jpg" ∧
    analyze_dir "d" ["a1.jpg", "a01.jpg", "b0.jpg"] 2 ≠ none := by
  decide

/-- C9 counterexample: on the tree `r/s/.h` (a single hidden file inside a
subdirectory), `find_leaf_dirs` with `include_empty` counts no files at all
and returns the root as a leaf, while `is_leaf_dir` sees the hidden file via
`rglob` and rejects the root: the two leaf notions disagree. -/
theorem leaf_notions_disagree_counterexample :
    (Entry.dir "r" [Entry.dir "s" [Entry.file ".h"]]) ∈
      walkDirs (Entry.dir "r" [Entry.dir "s" [Entry.file ".h"]]) ∧
    (Entry.dir "r" [Entry.dir "s" [Entry.file ".h"]]) ∈
      find_leaf_dirs (Entry.dir "r" [Entry.dir "s" [Entry.file ".h"]]) true ∧
    is_leaf_dir (Entry.dir "r" [Entry.dir "s" [Entry.file ".h"]]) = false := by
  refine ⟨?_, ?_, rfl⟩
  · have h : walkDirs (Entry.dir "r" [Entry.dir "s" [Entry.file ".h"]]) =
        [Entry.dir "r" [Entry.dir "s" [Entry.file ".h"]], Entry.dir "s" [Entry.file ".h"]] := rfl
    rw [h]
    exact List.Mem.head _
  · have h : find_leaf_dirs (Entry.dir "r" [Entry.dir "s" [Entry.file ".h"]]) true =
        [Entry.dir "r" [Entry.dir "s" [Entry.file ".h"]], Entry.dir "s" [Entry.file ".h"]] := rfl
    rw [h]
    exact List.Mem.head _

/-! ### Order and sorting lemmas -/

theorem insortBy_perm (le : α → α → Bool) (a : α) (l : List α) :
    (insortBy le a l).Perm (a :: l) := by
  induction l with
  | nil => exact List.Perm.refl _
  | cons b l ih =>
    simp only [insortBy]
    split
    · exact List.Perm.refl _
    · exact (ih.cons b).trans (List.Perm.swap a b l)

theorem sortBy_perm (le : α → α → Bool) (l : List α) : (sortBy le l).Perm l := by
  induction l with
  | nil => exact List.Perm.refl _
  | cons a l ih => exact (insortBy_perm le a (sortBy le l)).trans (ih.cons a)

theorem insortBy_pairwise {le : α → α → Bool}
    (htot : ∀ a b, le a b = true ∨ le b a = true)
    (htr : ∀ a b c, le a b = true → le b c = true → le a c = true)
    (a : α) (l : List α) (h : l.Pairwise (fun x y => le x y = true)) :
    (insortBy le a l).Pairwise (fun x y => le x y = true) := by
  induction l with
  | nil => simp [insortBy]
  | cons b l ih =>
    simp only [insortBy]
    rcases List.pairwise_cons.mp h with ⟨hb, hl⟩
    split
    · rename_i hab
      refine List.pairwise_cons.mpr ⟨?_, h⟩
      intro x hx
      rcases List.mem_cons.mp hx with rfl | hx
      · exact hab
      · exact htr a b x hab (hb x hx)
    · rename_i hab
      refine List.pairwise_cons.mpr ⟨?_, ih hl⟩
      intro x hx
      rcases List.mem_cons.mp ((insortBy_perm le a l).mem_iff.mp hx) with rfl | hx
      · rcases htot x b with hab2 | hba
        · exact absurd hab2 hab
        · exact hba
      · exact hb x hx

theorem sortBy_pairwise {le : α → α → Bool}
    (htot : ∀ a b, le a b = true ∨ le b a = true)
    (htr : ∀ a b c, le a b = true → le b c = true → le a c = true)
    (l : List α) : (sortBy le l).Pairwise (fun x y => le x y = true) := by
  induction l with
  | nil => simp [sortBy]
  | cons a l ih => exact insortBy_pairwise htot htr a (sortBy le l) ih

/-- `sorted(set(l))` is sorted by `≤`. -/
theorem sortedUnique_sorted (l : List Nat) : (sortedUnique l).Sorted (· ≤ ·) := by
  have h := @sortBy_pairwise Nat (fun a b : Nat => decide (a ≤ b))
    (fun a b => by rcases Nat.le_total a b with h | h <;> simp [h])
    (fun a b c h1 h2 => by
      simp only [decide_eq_true_eq] at h1 h2 ⊢
      omega)
    l.dedup
  exact h.imp (fun h => by simpa using h)

theorem sortedUnique_nodup (l : List Nat) : (sortedUnique l).Nodup :=
  (sortBy_perm _ l.dedup).nodup_iff.mpr l.nodup_dedup

theorem mem_sortedUnique {l : List Nat} {x : Nat} : x ∈ sortedUnique l ↔ x ∈ l := by
  rw [sortedUnique, (sortBy_perm _ l.dedup).mem_iff, List.mem_dedup]

/-! ### Python `min`/`max` lemmas -/

theorem foldl_min_le_init (x : Nat) (xs : List Nat) : xs.foldl Nat.min x ≤ x := by
  induction xs generalizing x with
  | nil => exact Nat.le_refl x
  | cons y ys ih =>
    exact Nat.le_trans (ih (Nat.min x y)) (Nat.min_le_left x y)

theorem foldl_min_le_mem {v : Nat} (x : Nat) (xs : List Nat) (hv : v ∈ xs) :
    xs.foldl Nat.min x ≤ v := by
  induction xs generalizing x with
  | nil => cases hv
  | cons y ys ih =>
    rcases List.mem_cons.mp hv with rfl | hv
    · rw [List.foldl_cons]
      exact Nat.le_trans (foldl_min_le_init (Nat.min x v) ys) (Nat.min_le_right x v)
    · exact ih (Nat.min x y) hv

theorem foldl_min_mem (x : Nat) (xs : List Nat) : xs.foldl Nat.min x ∈ x :: xs := by
  induction xs generalizing x with
  | nil => exact List.mem_cons_self _ _
  | cons y ys ih =>
    rw [List.foldl_cons]
    rcases List.mem_cons.mp (ih (Nat.min x y)) with h | h
    · have hm : Nat.min x y = x ∨ Nat.min x y = y := by
        by_cases hc : x ≤ y
        · exact Or.inl (Nat.min_eq_left hc)
        · exact Or.inr (Nat.min_eq_right (Nat.le_of_not_le hc))
      rcases hm with hm | hm
      · rw [hm] at h ⊢
        rw [h]
        exact List.mem_cons_self _ _
      · rw [hm] at h ⊢
        rw [h]
        exact List.mem_cons_of_mem _ (List.mem_cons_self _ _)
    · exact List.mem_cons_of_mem _ (List.mem_cons_of_mem _ h)

theorem listMin_le {l : List Nat} {v : Nat} (hv : v ∈ l) : listMin l ≤ v := by
  cases l with
  | nil => cases hv
  | cons x xs =>
    rcases List.mem_cons.mp hv with rfl | hv
    · exact foldl_min_le_init v xs
    · exact foldl_min_le_mem x xs hv

theorem listMin_mem {l : List Nat} (h : l ≠ []) : listMin l ∈ l := by
  cases l with
  | nil => exact absurd rfl h
  | cons x xs => exact foldl_min_mem x xs

theorem foldl_max_init_le (x : Nat) (xs : List Nat) : x ≤ xs.foldl Nat.max x := by
  induction xs generalizing x with
  | nil => exact Nat.le_refl x
  | cons y ys ih =>
    exact Nat.le_trans (Nat.le_max_left x y) (ih (Nat.max x y))

theorem foldl_max_mem_le {v : Nat} (x : Nat) (xs : List Nat) (hv : v ∈ xs) :
    v ≤ xs.foldl Nat.max x := by
  induction xs generalizing x with
  | nil => cases hv
  | cons y ys ih =>
    rcases List.mem_cons.mp hv with rfl | hv
    · rw [List.foldl_cons]
      exact Nat.le_trans (Nat.le_max_right x v) (foldl_max_init_le (Nat.max x v) ys)
    · exact ih (Nat.max x y) hv

theorem foldl_max_mem (x : Nat) (xs : List Nat) : xs.foldl Nat.max x ∈ x :: xs := by
  induction xs generalizing x with
  | nil => exact List.mem_cons_self _ _
  | cons y ys ih =>
    rw [List.foldl_cons]
    rcases List.mem_cons.mp (ih (Nat.max x y)) with h | h
    · have hm : Nat.max x y = x ∨ Nat.max x y = y := by
        by_cases hc : x ≤ y
        · exact Or.inr (Nat.max_eq_right hc)
        · exact Or.inl (Nat.max_eq_left (Nat.le_of_not_le hc))
      rcases hm with hm | hm
      · rw [hm] at h ⊢
        rw [h]
        exact List.mem_cons_self _ _
      · rw [hm] at h ⊢
        rw [h]
        exact List.mem_cons_of_mem _ (List.mem_cons_self _ _)
    · exact List.mem_cons_of_mem _ (List.mem_cons_of_mem _ h)

theorem le_listMax {l : List Nat} {v : Nat} (hv : v ∈ l) : v ≤ listMax l := by
  cases l with
  | nil => cases hv
  | cons x xs =>
    rcases List.mem_cons.mp hv with rfl | hv
    · exact foldl_max_init_le v xs
    · exact foldl_max_mem_le x xs hv

theorem listMax_mem {l : List Nat} (h : l ≠ []) : listMax l ∈ l := by
  cases l with
  | nil => exact absurd rfl h
  | cons x xs => exact foldl_max_mem x xs

/-! ### Characterizing the analyzer's checks -/

theorem dedup_eq_singleton {α : Type _} [DecidableEq α] {l : List α} {w : α}
    (hne : l ≠ []) (hall : ∀ x ∈ l, x = w) : l.dedup = [w] := by
  have hd : ∀ x ∈ l.dedup, x = w := fun x hx => hall x (List.mem_dedup.mp hx)
  have hnd := l.nodup_dedup
  have hdne : l.dedup ≠ [] := fun h0 => hne ((List.dedup_eq_nil l).mp h0)
  cases hdd : l.dedup with
  | nil => exact absurd hdd hdne
  | cons x rest =>
    rw [hdd] at hd hnd
    have hx : x = w := hd x (List.mem_cons_self _ _)
    cases rest with
    | nil => rw [hx]
    | cons y rest2 =>
      have hy : y = w := hd y (List.mem_cons_of_mem _ (List.mem_cons_self _ _))
      rcases List.pairwise_cons.mp hnd with ⟨hne2, _⟩
      exact absurd (hx.trans hy.symm) (hne2 y (List.mem_cons_self _ _))

/-- `fully_padded` holds iff every entry's token string has the desired
width. -/
theorem fully_padded_iff (names : List String) (h : entriesOf names ≠ []) :
    fully_paddedOf names = true ↔
      ∀ e ∈ entriesOf names, e.2.2.length = desired_widthOf names := by
  have htlne : token_lengthsOf names ≠ [] := by
    intro h0
    exact h (List.map_eq_nil_iff.mp h0)
  have hheadmem : (token_lengthsOf names).headD 0 ∈ token_lengthsOf names := by
    cases htl : token_lengthsOf names with
    | nil => exact absurd htl htlne
    | cons t ts => exact List.mem_cons_self _ _
  constructor
  · intro hfp
    simp only [fully_paddedOf, Bool.and_eq_true, beq_iff_eq] at hfp
    rcases hfp with ⟨hlen1, hhead⟩
    rcases List.length_eq_one.mp hlen1 with ⟨a, ha⟩
    have hall : ∀ x ∈ token_lengthsOf names, x = a := by
      intro x hx
      have := List.mem_dedup.mpr hx
      rw [ha] at this
      exact List.mem_singleton.mp this
    have hha : (token_lengthsOf names).headD 0 = a := hall _ hheadmem
    intro e he
    have hmem : e.2.2.length ∈ token_lengthsOf names :=
      List.mem_map.mpr ⟨e, he, rfl⟩
    rw [hall _ hmem, ← hha, hhead]
  · intro hall
    have hall2 : ∀ x ∈ token_lengthsOf names, x = desired_widthOf names := by
      intro x hx
      rcases List.mem_map.mp hx with ⟨e, he, hex⟩
      rw [← hex]
      exact hall e he
    simp only [fully_paddedOf, Bool.and_eq_true, beq_iff_eq]
    rw [dedup_eq_singleton htlne hall2]
    exact ⟨rfl, hall2 _ hheadmem⟩

/-- The contiguity check passes iff the values cover the whole interval
`[min, max]`: it constrains only the set of distinct values. -/
theorem consecutive_iff_cover (names : List String) (hne : numsOf names ≠ []) :
    consecutiveOf names = true ↔
      ∀ k, listMin (numsOf names) ≤ k → k ≤ listMax (numsOf names) → k ∈ numsOf names := by
  have hmM : listMin (numsOf names) ≤ listMax (numsOf names) :=
    listMin_le (listMax_mem hne)
  simp only [consecutiveOf, Bool.and_eq_true, beq_iff_eq]
  constructor
  · rintro ⟨_, hu⟩ k h1 h2
    have hk : k ∈ List.range' (listMin (numsOf names))
        (listMax (numsOf names) - listMin (numsOf names) + 1) := by
      rw [List.mem_range'_1]
      omega
    rw [← hu] at hk
    exact mem_sortedUnique.mp hk
  · intro hcover
    have hueq : sortedUnique (numsOf names) =
        List.range' (listMin (numsOf names))
          (listMax (numsOf names) - listMin (numsOf names) + 1) := by
      have hperm : List.Perm (sortedUnique (numsOf names))
          (List.range' (listMin (numsOf names))
            (listMax (numsOf names) - listMin (numsOf names) + 1)) := by
        apply List.perm_of_nodup_nodup_toFinset_eq (sortedUnique_nodup _)
          (List.nodup_range' _ _)
        ext x
        simp only [List.mem_toFinset, mem_sortedUnique, List.mem_range'_1]
        constructor
        · intro hx
          have h1 := listMin_le hx
          have h2 := le_listMax hx
          omega
        · intro hx
          exact hcover x hx.1 (by omega)
      exact List.eq_of_perm_of_sorted hperm (sortedUnique_sorted _)
        ((List.pairwise_lt_range' _ _ 1 (by omega)).imp Nat.le_of_lt)
    refine ⟨?_, by rw [hueq]⟩
    rw [hueq, List.length_range']

/-- C1: for a directory whose (at least `min_files`) numeric entries cover the
interval `[min, max]` exactly, `analyze_dir` reports iff the lexicographic
order differs from the numeric order and not every token has the digit count
of the maximum; otherwise it returns null. -/
theorem analyze_dir_flags_iff (d : String) (names : List String) (mf : Nat)
    (hcount : mf ≤ (entriesOf names).length)
    (hrange : ∀ k, listMin (numsOf names) ≤ k → k ≤ listMax (numsOf names) → k ∈ numsOf names) :
    (analyze_dir d names mf).isSome = true ↔
      (lex_orderOf names ≠ numeric_orderOf names ∧
        ¬ ∀ e ∈ entriesOf names, e.2.2.length = digitsCount (listMax (numsOf names))) := by
  have hnumsne : numsOf names ≠ [] := by
    intro h0
    have h1 : listMin (numsOf names) ≤ listMax (numsOf names) := by
      rw [h0]
      exact Nat.le_refl _
    have h2 := hrange _ (Nat.le_refl _) h1
    rw [h0] at h2
    cases h2
  have hentne : entriesOf names ≠ [] := by
    intro h0
    apply hnumsne
    rw [numsOf, h0]
    rfl
  have hfle : (entriesOf names).length ≤ (filesOf names).length :=
    List.length_filterMap_le _ _
  have hfiles : ¬ (filesOf names).length < mf := by omega
  have hent : ¬ (entriesOf names).length < mf := by omega
  have hcons : ¬ (consecutiveOf names = false) := by
    rw [(consecutive_iff_cover names hnumsne).mpr hrange]
    exact Bool.true_eq_false ▸ (by simp)
  have hwd : desired_widthOf names = digitsCount (listMax (numsOf names)) := rfl
  unfold analyze_dir
  rw [if_neg hfiles, if_neg hent, if_neg hcons]
  by_cases hflag : lex_orderOf names ≠ numeric_orderOf names ∧ fully_paddedOf names = false
  · rw [if_pos hflag]
    simp only [Option.isSome_some, true_iff]
    refine ⟨hflag.1, ?_⟩
    intro hall
    have := (fully_padded_iff names hentne).mpr (by rw [hwd]; exact hall)
    rw [hflag.2] at this
    cases this
  · rw [if_neg hflag]
    simp only [Option.isSome_none, Bool.false_eq_true, false_iff]
    rintro ⟨h1, h2⟩
    apply h2
    have hfp : fully_paddedOf names = true := by
      cases hb : fully_paddedOf names
      · exact absurd ⟨h1, hb⟩ hflag
      · rfl
    rw [← hwd]
    exact (fully_padded_iff names hentne).mp hfp

theorem analyze_dir_flags_iff_witness :
    (analyze_dir "d" ["b1.x", "a2.x"] 2).isSome = true ↔
      (lex_orderOf ["b1.x", "a2.x"] ≠ numeric_orderOf ["b1.x", "a2.x"] ∧
        ¬ ∀ e ∈ entriesOf ["b1.x", "a2.x"],
          e.2.2.length = digitsCount (listMax (numsOf ["b1.x", "a2.x"]))) :=
  analyze_dir_flags_iff "d" ["b1.x", "a2.x"] 2 (by decide)
    (by
      have hmin : listMin (numsOf ["b1.x", "a2.x"]) = 1 := by decide
      have hmax : listMax (numsOf ["b1.x", "a2.x"]) = 2 := by decide
      intro k h1 h2
      rw [hmin] at h1
      rw [hmax] at h2
      have hk : k = 1 ∨ k = 2 := by omega
      rcases hk with rfl | rfl <;> decide)

/-- C3 amended: two distinct files with the same integer value do not by
themselves make `analyze_dir` return null — the contiguity check only
constrains the set of distinct values.  With duplicates present,
`analyze_dir` returns null exactly when one of its ordinary conditions fails
(below-threshold counts, distinct values not covering `[min, max]`, equal
orders, or full padding); in particular such a directory can still be
flagged. -/
theorem duplicate_values_ordinary_criteria (d : String) (names : List String) (mf : Nat)
    (hdup : ∃ e1 ∈ entriesOf names, ∃ e2 ∈ entriesOf names, e1.1 ≠ e2.1 ∧ e1.2.1 = e2.2.1) :
    analyze_dir d names mf = none ↔
      ((filesOf names).length < mf ∨ (entriesOf names).length < mf ∨
        consecutiveOf names = false ∨ lex_orderOf names = numeric_orderOf names ∨
        fully_paddedOf names = true) := by
  clear hdup
  unfold analyze_dir
  by_cases h1 : (filesOf names).length < mf
  · simp [h1]
  · rw [if_neg h1]
    by_cases h2 : (entriesOf names).length < mf
    · simp [h1, h2]
    · rw [if_neg h2]
      by_cases h3 : consecutiveOf names = false
      · simp [h1, h2, h3]
      · rw [if_neg h3]
        by_cases h4 : lex_orderOf names ≠ numeric_orderOf names ∧ fully_paddedOf names = false
        · rw [if_pos h4]
          simp [h1, h2, h3, h4.1, h4.2]
        · rw [if_neg h4]
          have hor : lex_orderOf names = numeric_orderOf names ∨ fully_paddedOf names = true := by
            rcases not_and_or.mp h4 with h | h
            · exact Or.inl (not_not.mp h)
            · cases hb : fully_paddedOf names
              · exact absurd hb h
              · exact Or.inr rfl
          constructor
          · intro _
            rcases hor with h | h
            · exact Or.inr (Or.inr (Or.inr (Or.inl h)))
            · exact Or.inr (Or.inr (Or.inr (Or.inr h)))
          · intro _
            rfl

theorem duplicate_values_ordinary_criteria_witness :
    analyze_dir "d" ["a1.jpg", "a01.jpg", "b0.jpg"] 2 = none ↔
      ((filesOf ["a1.jpg", "a01.jpg", "b0.jpg"]).length < 2 ∨
        (entriesOf ["a1.jpg", "a01.jpg", "b0.jpg"]).length < 2 ∨
        consecutiveOf ["a1.jpg", "a01.jpg", "b0.jpg"] = false ∨
        lex_orderOf ["a1.jpg", "a01.jpg", "b0.jpg"] =
          numeric_orderOf ["a1.jpg", "a01.jpg", "b0.jpg"] ∨
        fully_paddedOf ["a1.jpg", "a01.jpg", "b0.jpg"] = true) :=
  duplicate_values_ordinary_criteria "d" ["a1.jpg", "a01.jpg", "b0.jpg"] 2 (by decide)

/-! ### Leaf directories -/

theorem directFiles_dir_nil {n : String} {cs : List Entry} :
    directFiles (Entry.dir n cs) = [] ↔ ∀ x, Entry.file x ∉ cs := by
  simp only [directFiles, List.filterMap_eq_nil_iff]
  constructor
  · intro h x hx
    have := h _ hx
    simp at this
  · intro h a ha
    cases a with
    | file x => exact (h x ha).elim
    | dir m cs1 => rfl

/-- A forest contains no file anywhere iff none of its roots is a file and
every directory in it (at any depth) has no direct file. -/
theorem forest_nofile : (cs : List Entry) →
    (anyHasFile cs = false ↔
      ((∀ x, Entry.file x ∉ cs) ∧ ∀ d ∈ subdirsOfList cs, directFiles d = []))
  | [] => by simp [anyHasFile, subdirsOfList]
  | .file n :: cs => by
    simp only [anyHasFile, subtreeHasFile, Bool.true_or]
    constructor
    · intro h
      cases h
    · rintro ⟨hno, _⟩
      exact ((hno n) (List.mem_cons_self _ _)).elim
  | .dir m cs1 :: cs => by
    have h1 := forest_nofile cs1
    have h2 := forest_nofile cs
    simp only [anyHasFile, subtreeHasFile, Bool.or_eq_false_iff, subdirsOfList,
      List.forall_mem_cons, List.forall_mem_append]
    rw [h1, h2]
    have hmem : (∀ x, Entry.file x ∉ Entry.dir m cs1 :: cs) ↔ ∀ x, Entry.file x ∉ cs := by
      constructor
      · intro h x hx
        exact h x (List.mem_cons_of_mem _ hx)
      · intro h x hx
        rcases List.mem_cons.mp hx with heq | hx2
        · cases heq
        · exact h x hx2
    rw [hmem, directFiles_dir_nil]
    tauto

/-- Membership in the descendant directories of a forest. -/
theorem mem_subdirsOfList {d : Entry} : ∀ {cs : List Entry},
    d ∈ subdirsOfList cs ↔
      ∃ m cs1, Entry.dir m cs1 ∈ cs ∧ (d = Entry.dir m cs1 ∨ d ∈ subdirsOfList cs1)
  | [] => by simp [subdirsOfList]
  | .file n :: cs => by
    rw [subdirsOfList, @mem_subdirsOfList d cs]
    constructor
    · rintro ⟨m, cs1, hmem, hc⟩
      exact ⟨m, cs1, List.mem_cons_of_mem _ hmem, hc⟩
    · rintro ⟨m, cs1, hmem, hc⟩
      rcases List.mem_cons.mp hmem with heq | hmem2
      · cases heq
      · exact ⟨m, cs1, hmem2, hc⟩
  | .dir m2 cs2 :: cs => by
    rw [subdirsOfList]
    simp only [List.mem_cons, List.mem_append]
    rw [@mem_subdirsOfList d cs]
    constructor
    · rintro (rfl | hin | ⟨m, cs1, hmem, hc⟩)
      · exact ⟨m2, cs2, Or.inl rfl, Or.inl rfl⟩
      · exact ⟨m2, cs2, Or.inl rfl, Or.inr hin⟩
      · exact ⟨m, cs1, Or.inr hmem, hc⟩
    · rintro ⟨m, cs1, hmem | hmem, hc⟩
      · cases hmem
        rcases hc with rfl | hin
        · exact Or.inl rfl
        · exact Or.inr (Or.inl hin)
      · exact Or.inr (Or.inr ⟨m, cs1, hmem, hc⟩)

/-- C8: `is_leaf_dir` holds iff the input is a directory and none of its
recursive subdirectories contains any file directly; a directory whose
subdirectories hold only further (file-free) subdirectories is a leaf, and a
non-directory yields false. -/
theorem is_leaf_dir_iff_no_subdir_files (e : Entry) :
    is_leaf_dir e = true ↔
      (isDirE e = true ∧ ∀ d ∈ subdirsRec e, directFiles d = []) := by
  cases e with
  | file n => simp [is_leaf_dir, isDirE]
  | dir n cs =>
    simp only [is_leaf_dir, isDirE, subdirsRec, List.all_eq_true, true_and]
    constructor
    · intro hall d hd
      rcases mem_subdirsOfList.mp hd with ⟨m, cs1, hmem, hcase⟩
      have hp := hall _ hmem
      simp only [Bool.not_eq_true'] at hp
      rcases (forest_nofile cs1).mp hp with ⟨hnof, hsub⟩
      rcases hcase with rfl | hdin
      · exact directFiles_dir_nil.mpr hnof
      · exact hsub d hdin
    · intro hall sub hmem
      cases sub with
      | file x => rfl
      | dir m cs1 =>
        have hd1 : directFiles (Entry.dir m cs1) = [] :=
          hall _ (mem_subdirsOfList.mpr ⟨m, cs1, hmem, Or.inl rfl⟩)
        have hd2 : ∀ d ∈ subdirsOfList cs1, directFiles d = [] := fun d hd =>
          hall _ (mem_subdirsOfList.mpr ⟨m, cs1, hmem, Or.inr hd⟩)
        have hnf := (forest_nofile cs1).mpr ⟨directFiles_dir_nil.mp hd1, hd2⟩
        simp [hnf]

theorem is_leaf_dir_iff_no_subdir_files_witness :
    isDirE (Entry.dir "a" [Entry.dir "b" [Entry.dir "c" []]]) = true ∧
      ∀ d ∈ subdirsRec (Entry.dir "a" [Entry.dir "b" [Entry.dir "c" []]]),
        directFiles d = [] :=
  (is_leaf_dir_iff_no_subdir_files (Entry.dir "a" [Entry.dir "b" [Entry.dir "c" []]])).mp rfl

mutual

theorem walkDirs_isDir : (e : Entry) → ∀ d ∈ walkDirs e, isDirE d = true
  | .file _ => by simp [walkDirs]
  | .dir n cs => by
    intro d hd
    rw [walkDirs] at hd
    rcases List.mem_cons.mp hd with rfl | hd2
    · rfl
    · exact walkList_isDir cs d hd2

theorem walkList_isDir : (cs : List Entry) → ∀ d ∈ walkList cs, isDirE d = true
  | [] => by simp [walkList]
  | c :: cs => by
    intro d hd
    rw [walkList] at hd
    rcases List.mem_append.mp hd with h | h
    · exact walkDirs_isDir c d h
    · exact walkList_isDir cs d h

end

mutual

theorem noHidden_walk : (e : Entry) → noHiddenFiles e = true →
    ∀ d ∈ walkDirs e, noHiddenFiles d = true
  | .file _ => by simp [walkDirs]
  | .dir n cs => by
    intro hnh d hd
    rw [walkDirs] at hd
    rcases List.mem_cons.mp hd with rfl | hd2
    · exact hnh
    · exact noHidden_walkList cs hnh d hd2

theorem noHidden_walkList : (cs : List Entry) → allNoHidden cs = true →
    ∀ d ∈ walkList cs, noHiddenFiles d = true
  | [] => by simp [walkList]
  | c :: cs => by
    intro hnh d hd
    rw [allNoHidden, Bool.and_eq_true] at hnh
    rw [walkList] at hd
    rcases List.mem_append.mp hd with h | h
    · exact noHidden_walk c hnh.1 d h
    · exact noHidden_walkList cs hnh.2 d h

end

mutual

/-- In a tree without hidden files, the archive tool's total count is zero iff
the subtree contains no file at all. -/
theorem total_zero_iff : (e : Entry) → noHiddenFiles e = true →
    (totalCountNH e = 0 ↔ subtreeHasFile e = false)
  | .file x => by
    intro hnh
    rw [noHiddenFiles, Bool.not_eq_true'] at hnh
    simp [totalCountNH, subtreeHasFile, hnh]
  | .dir n cs => by
    intro hnh
    rw [noHiddenFiles] at hnh
    rw [totalCountNH, subtreeHasFile]
    exact totalList_zero_iff cs hnh

theorem totalList_zero_iff : (cs : List Entry) → allNoHidden cs = true →
    (totalListNH cs = 0 ↔ anyHasFile cs = false)
  | [] => by simp [totalListNH, anyHasFile]
  | c :: cs => by
    intro hnh
    rw [allNoHidden, Bool.and_eq_true] at hnh
    rw [totalListNH, anyHasFile, Bool.or_eq_false_iff]
    rw [← total_zero_iff c hnh.1, ← totalList_zero_iff cs hnh.2]
    omega

end

theorem forest_total_ge : (cs : List Entry) → allNoHidden cs = true →
    ((cs.filterMap (fun c => match c with | .file x => some x | .dir _ _ => none)).filter
      (fun x => !isHidden x)).length ≤ totalListNH cs
  | [] => by simp [totalListNH]
  | .file x :: cs => by
    intro hnh
    rw [allNoHidden, Bool.and_eq_true] at hnh
    have hx : isHidden x = false := by
      have := hnh.1
      rw [noHiddenFiles, Bool.not_eq_true'] at this
      exact this
    have ih := forest_total_ge cs hnh.2
    have e1 : totalCountNH (Entry.file x) = 1 := by simp [totalCountNH, hx]
    have e2 : (Entry.file x :: cs).filterMap
        (fun c => match c with | .file y => some y | .dir _ _ => none) =
        x :: cs.filterMap (fun c => match c with | .file y => some y | .dir _ _ => none) := rfl
    rw [totalListNH, e1, e2, List.filter_cons_of_pos (by simp [hx]), List.length_cons]
    omega
  | .dir m cs1 :: cs => by
    intro hnh
    rw [allNoHidden, Bool.and_eq_true] at hnh
    have ih := forest_total_ge cs hnh.2
    have e1 : totalCountNH (Entry.dir m cs1) = totalListNH cs1 := rfl
    have e2 : (Entry.dir m cs1 :: cs).filterMap
        (fun c => match c with | .file y => some y | .dir _ _ => none) =
        cs.filterMap (fun c => match c with | .file y => some y | .dir _ _ => none) := rfl
    rw [totalListNH, e1, e2]
    omega

/-- In a forest without hidden files, the total count equals the direct count
iff no child directory's subtree contains a file. -/
theorem forest_total_eq_iff : (cs : List Entry) → allNoHidden cs = true →
    (totalListNH cs =
        ((cs.filterMap (fun c => match c with | .file x => some x | .dir _ _ => none)).filter
          (fun x => !isHidden x)).length ↔
      cs.all (fun sub => match sub with
        | .file _ => true
        | .dir _ cs1 => !(anyHasFile cs1)) = true)
  | [] => by simp [totalListNH]
  | .file x :: cs => by
    intro hnh
    rw [allNoHidden, Bool.and_eq_true] at hnh
    have hx : isHidden x = false := by
      have := hnh.1
      rw [noHiddenFiles, Bool.not_eq_true'] at this
      exact this
    have ih := forest_total_eq_iff cs hnh.2
    have e1 : totalCountNH (Entry.file x) = 1 := by simp [totalCountNH, hx]
    have e2 : (Entry.file x :: cs).filterMap
        (fun c => match c with | .file y => some y | .dir _ _ => none) =
        x :: cs.filterMap (fun c => match c with | .file y => some y | .dir _ _ => none) := rfl
    have e3 : (Entry.file x :: cs).all (fun sub => match sub with
        | .file _ => true
        | .dir _ cs1 => !(anyHasFile cs1)) =
        cs.all (fun sub => match sub with
        | .file _ => true
        | .dir _ cs1 => !(anyHasFile cs1)) := rfl
    rw [totalListNH, e1, e2, e3, List.filter_cons_of_pos (by simp [hx]), List.length_cons,
      ← ih]
    constructor <;> intro h <;> omega
  | .dir m cs1 :: cs => by
    intro hnh
    rw [allNoHidden, Bool.and_eq_true] at hnh
    have h1 : allNoHidden cs1 = true := by
      have := hnh.1
      rw [noHiddenFiles] at this
      exact this
    have hge := forest_total_ge cs hnh.2
    have hzero := totalList_zero_iff cs1 h1
    have ih := forest_total_eq_iff cs hnh.2
    have e1 : totalCountNH (Entry.dir m cs1) = totalListNH cs1 := rfl
    have e2 : (Entry.dir m cs1 :: cs).filterMap
        (fun c => match c with | .file y => some y | .dir _ _ => none) =
        cs.filterMap (fun c => match c with | .file y => some y | .dir _ _ => none) := rfl
    have e3 : (Entry.dir m cs1 :: cs).all (fun sub => match sub with
        | .file _ => true
        | .dir _ cs1 => !(anyHasFile cs1)) =
        ((!(anyHasFile cs1)) && cs.all (fun sub => match sub with
        | .file _ => true
        | .dir _ cs1 => !(anyHasFile cs1))) := rfl
    rw [totalListNH, e1, e2, e3, Bool.and_eq_true, Bool.not_eq_true', ← hzero, ← ih]
    constructor <;> intro h <;> omega

/-- C9 amended: the two leaf notions agree on every directory of a tree that
contains no hidden files; in general they differ exactly on hidden files,
which `find_leaf_dirs` excludes from its counts while `is_leaf_dir`'s `rglob`
scan sees them. -/
theorem leaf_notions_agree_no_hidden (root : Entry) (hnh : noHiddenFiles root = true) :
    ∀ d ∈ walkDirs root, (d ∈ find_leaf_dirs root true ↔ is_leaf_dir d = true) := by
  intro d hd
  have hdir := walkDirs_isDir root d hd
  have hnhd := noHidden_walk root hnh d hd
  cases d with
  | file x => cases hdir
  | dir n cs =>
    rw [find_leaf_dirs, List.mem_filter]
    have hnhc : allNoHidden cs = true := by
      rw [noHiddenFiles] at hnhd
      exact hnhd
    have hiff := forest_total_eq_iff cs hnhc
    constructor
    · rintro ⟨_, hp⟩
      simp only [Bool.not_true, Bool.and_false, Bool.not_false, Bool.true_and,
        beq_iff_eq] at hp
      rw [is_leaf_dir]
      rw [totalCountNH] at hp
      exact hiff.mp hp
    · intro hleaf
      refine ⟨hd, ?_⟩
      rw [is_leaf_dir] at hleaf
      simp only [Bool.not_true, Bool.and_false, Bool.not_false, Bool.true_and,
        beq_iff_eq]
      rw [totalCountNH]
      exact hiff.mpr hleaf

theorem leaf_notions_agree_no_hidden_witness :
    (Entry.dir "a" [Entry.dir "b" [Entry.file "f1"]]) ∈
        find_leaf_dirs (Entry.dir "a" [Entry.dir "b" [Entry.file "f1"]]) true ↔
      is_leaf_dir (Entry.dir "a" [Entry.dir "b" [Entry.file "f1"]]) = true :=
  leaf_notions_agree_no_hidden (Entry.dir "a" [Entry.dir "b" [Entry.file "f1"]]) rfl
    (Entry.dir "a" [Entry.dir "b" [Entry.file "f1"]])
    (by
      rw [show walkDirs (Entry.dir "a" [Entry.dir "b" [Entry.file "f1"]]) =
        [Entry.dir "a" [Entry.dir "b" [Entry.file "f1"]], Entry.dir "b" [Entry.file "f1"]] from rfl]
      exact List.Mem.head _)

/-! ### Stem, suffix and last-digit-run decomposition -/

theorem revSplit_eq_some {l a b : List Char} (h : revSplit l = some (a, b)) :
    l = a ++ '.' :: b ∧ ∀ c ∈ a, c ≠ '.' := by
  induction l generalizing a with
  | nil => cases h
  | cons c rest ih =>
    rw [revSplit] at h
    by_cases hc : c = '.'
    · rw [if_pos hc] at h
      cases h
      subst hc
      exact ⟨rfl, by simp⟩
    · rw [if_neg hc] at h
      cases hrs : revSplit rest with
      | none => rw [hrs] at h; cases h
      | some p =>
        rw [hrs] at h
        cases h
        rcases @ih p.1 (by rw [hrs]) with ⟨he, hnd⟩
        refine ⟨by rw [List.cons_append, he], ?_⟩
        intro x hx
        rcases List.mem_cons.mp hx with rfl | hx2
        · exact hc
        · exact hnd x hx2

theorem revSplit_eq_none {l : List Char} (h : revSplit l = none) : '.' ∉ l := by
  induction l with
  | nil => simp
  | cons c rest ih =>
    rw [revSplit] at h
    by_cases hc : c = '.'
    · rw [if_pos hc] at h; cases h
    · rw [if_neg hc] at h
      intro hmem
      rcases List.mem_cons.mp hmem with heq | hmem2
      · exact hc heq.symm
      · cases hrs : revSplit rest with
        | none => exact (ih hrs) hmem2
        | some p => rw [hrs] at h; cases h

theorem revSplit_append {a b : List Char} (ha : ∀ c ∈ a, c ≠ '.') :
    revSplit (a ++ '.' :: b) = some (a, b) := by
  induction a with
  | nil => simp [revSplit]
  | cons c a2 ih =>
    have hc : c ≠ '.' := ha c (List.mem_cons_self _ _)
    rw [List.cons_append, revSplit, if_neg hc,
      ih (fun x hx => ha x (List.mem_cons_of_mem _ hx))]
    rfl

theorem revSplit_of_no_dot {l : List Char} (h : '.' ∉ l) : revSplit l = none := by
  induction l with
  | nil => rfl
  | cons c rest ih =>
    have hc : ¬ c = '.' := fun hcc => h (hcc ▸ List.mem_cons_self _ _)
    rw [revSplit, if_neg hc, ih (fun hm => h (List.mem_cons_of_mem _ hm))]
    rfl

/-- `stem ++ suffix` recomposes the name. -/
theorem stem_append_suffix (n : String) : stemOf n ++ suffixOf n = n := by
  rw [stemOf, suffixOf, splitExt]
  cases hrs : revSplit n.data.reverse with
  | none => exact String.append_empty n
  | some p =>
    obtain ⟨a, b⟩ := p
    by_cases he : a.isEmpty || b.isEmpty
    · simp only [he, if_pos]
      exact String.append_empty n
    · simp only [he, if_neg, Bool.false_eq_true, not_false_iff]
      rcases revSplit_eq_some hrs with ⟨hl, _⟩
      apply String.ext
      rw [String.data_append]
      show b.reverse ++ '.' :: a.reverse = n.data
      have : n.data.reverse = a ++ '.' :: b := hl
      calc b.reverse ++ '.' :: a.reverse = (a ++ '.' :: b).reverse := by simp
        _ = n.data.reverse.reverse := by rw [this]
        _ = n.data := List.reverse_reverse _

theorem dropWhile_head_not {α : Type _} {p : α → Bool} {l : List α} {c : α} {t : List α}
    (h : l.dropWhile p = c :: t) : p c = false := by
  induction l with
  | nil => cases h
  | cons x xs ih =>
    rw [List.dropWhile_cons] at h
    split at h
    · exact ih h
    · cases h
      rename_i hc
      exact Bool.eq_false_iff.mpr hc

/-- Inversion of `lastRunSplit`: the three parts recompose the string, the run
is a nonempty digit run, the tail is digit-free, and the prefix does not end
in a digit. -/
theorem lastRunSplit_eq_some {s pre run post : List Char}
    (h : lastRunSplit s = some (pre, run, post)) :
    s = pre ++ run ++ post ∧ run ≠ [] ∧ (∀ c ∈ run, c.isDigit = true) ∧
      (∀ c ∈ post, c.isDigit = false) ∧
      (pre = [] ∨ ∃ c l, pre = l ++ [c] ∧ c.isDigit = false) := by
  simp only [lastRunSplit] at h
  split at h
  · cases h
  · rename_i c tail heq
    simp only [Option.some.injEq, Prod.mk.injEq] at h
    obtain ⟨hpre, hrun, hpost⟩ := h
    have hcdigit : c.isDigit = true := by
      have := dropWhile_head_not heq
      simp only [Bool.not_eq_false'] at this
      exact this
    have hpre2 : pre = ((c :: tail).dropWhile Char.isDigit).reverse := by
      rw [← hpre, heq]
    have hrun2 : run = ((c :: tail).takeWhile Char.isDigit).reverse := by
      rw [← hrun, heq]
    have hpost2 : post = (s.reverse.takeWhile (fun c => !c.isDigit)).reverse := by
      rw [← hpost]
    have hsplit1 : s.reverse.takeWhile (fun c => !c.isDigit) ++ (c :: tail) = s.reverse := by
      rw [← heq]
      exact List.takeWhile_append_dropWhile _ _
    have hsplit2 : (c :: tail).takeWhile Char.isDigit ++ (c :: tail).dropWhile Char.isDigit =
        c :: tail := List.takeWhile_append_dropWhile _ _
    refine ⟨?_, ?_, ?_, ?_, ?_⟩
    · rw [hpre2, hrun2, hpost2]
      have h3 : s.reverse.takeWhile (fun c => !c.isDigit) ++
          (c :: tail).takeWhile Char.isDigit ++ (c :: tail).dropWhile Char.isDigit =
          s.reverse := by
        rw [List.append_assoc, hsplit2, hsplit1]
      calc s = s.reverse.reverse := (List.reverse_reverse s).symm
        _ = (s.reverse.takeWhile (fun c => !c.isDigit) ++
            (c :: tail).takeWhile Char.isDigit ++
            (c :: tail).dropWhile Char.isDigit).reverse := by rw [h3]
        _ = _ := by simp only [List.reverse_append, List.append_assoc]
    · rw [hrun2, List.takeWhile_cons_of_pos hcdigit]
      simp
    · intro x hx
      rw [hrun2] at hx
      exact List.mem_takeWhile_imp (List.mem_reverse.mp hx)
    · intro x hx
      rw [hpost2] at hx
      have := List.mem_takeWhile_imp (List.mem_reverse.mp hx)
      simp only [Bool.not_eq_true'] at this
      exact this
    · cases hAc : (c :: tail).dropWhile Char.isDigit with
      | nil =>
        left
        rw [hpre2, hAc]
        rfl
      | cons c2 t2 =>
        right
        refine ⟨c2, t2.reverse, by rw [hpre2, hAc]; simp, dropWhile_head_not hAc⟩

/-- `lastRunSplit` on a string decomposed around a nonempty digit run whose
prefix does not end in a digit and whose tail is digit-free recovers exactly
that decomposition. -/
theorem lastRunSplit_append {pre run post : List Char}
    (hrun_ne : run ≠ []) (hrun : ∀ c ∈ run, c.isDigit = true)
    (hpost : ∀ c ∈ post, c.isDigit = false)
    (hpre : pre = [] ∨ ∃ c l, pre = l ++ [c] ∧ c.isDigit = false) :
    lastRunSplit (pre ++ run ++ post) = some (pre, run, post) := by
  cases hrr : run.reverse with
  | nil => exact absurd (by simpa using hrr) hrun_ne
  | cons rc rrest =>
    have hrc : rc.isDigit = true := by
      apply hrun
      have : rc ∈ run.reverse := by rw [hrr]; exact List.mem_cons_self _ _
      exact List.mem_reverse.mp this
    have hrev : (pre ++ run ++ post).reverse =
        post.reverse ++ (run.reverse ++ pre.reverse) := by simp
    have hpostrev : ∀ x ∈ post.reverse, (!x.isDigit) = true := by
      intro x hx
      simp [hpost x (List.mem_reverse.mp hx)]
    have htake1 : (post.reverse ++ (run.reverse ++ pre.reverse)).takeWhile
        (fun c => !c.isDigit) = post.reverse := by
      rw [List.takeWhile_append_of_pos hpostrev, hrr, List.cons_append,
        List.takeWhile_cons_of_neg (by simp [hrc])]
      simp
    have hdrop1 : (post.reverse ++ (run.reverse ++ pre.reverse)).dropWhile
        (fun c => !c.isDigit) = run.reverse ++ pre.reverse := by
      rw [List.dropWhile_append_of_pos hpostrev, hrr, List.cons_append,
        List.dropWhile_cons_of_neg (by simp [hrc]), ← List.cons_append, ← hrr]
    have hrundig : ∀ x ∈ run.reverse, x.isDigit = true := fun x hx =>
      hrun x (List.mem_reverse.mp hx)
    have hpretake : pre.reverse.takeWhile Char.isDigit = [] := by
      rcases hpre with rfl | ⟨c, l, rfl, hc⟩
      · simp
      · rw [List.reverse_append]
        simp only [List.reverse_cons, List.reverse_nil, List.nil_append]
        rw [List.singleton_append, List.takeWhile_cons_of_neg (by simp [hc])]
    have hpredrop : pre.reverse.dropWhile Char.isDigit = pre.reverse := by
      rcases hpre with rfl | ⟨c, l, rfl, hc⟩
      · simp
      · rw [List.reverse_append]
        simp only [List.reverse_cons, List.reverse_nil, List.nil_append]
        rw [List.singleton_append, List.dropWhile_cons_of_neg (by simp [hc])]
    have htake2 : (run.reverse ++ pre.reverse).takeWhile Char.isDigit = run.reverse := by
      rw [List.takeWhile_append_of_pos hrundig, hpretake]
      simp
    have hdrop2 : (run.reverse ++ pre.reverse).dropWhile Char.isDigit = pre.reverse := by
      rw [List.dropWhile_append_of_pos hrundig, hpredrop]
    simp only [lastRunSplit]
    rw [hrev, htake1, hdrop1, hrr, List.cons_append]
    show some (((rc :: (rrest ++ pre.reverse)).dropWhile Char.isDigit).reverse,
        ((rc :: (rrest ++ pre.reverse)).takeWhile Char.isDigit).reverse,
        post.reverse.reverse) = some (pre, run, post)
    rw [← List.cons_append, ← hrr, htake2, hdrop2, List.reverse_reverse,
      List.reverse_reverse, List.reverse_reverse]

/-- A string has no digit iff `lastRunSplit` finds nothing. -/
theorem lastRunSplit_eq_none_iff {s : List Char} :
    lastRunSplit s = none ↔ ∀ c ∈ s, c.isDigit = false := by
  simp only [lastRunSplit]
  cases hdd : s.reverse.dropWhile (fun c => !c.isDigit) with
  | nil =>
    simp only []
    constructor
    · intro _ c hc
      have := List.dropWhile_eq_nil_iff.mp hdd c (List.mem_reverse.mpr hc)
      simp only [Bool.not_eq_true'] at this
      exact this
    · intro _
      trivial
  | cons c2 t2 =>
    simp only []
    constructor
    · intro h
      cases h
    · intro hall
      have hmem : c2 ∈ s.reverse := by
        have hsub : c2 ∈ s.reverse.dropWhile (fun c => !c.isDigit) := by
          rw [hdd]
          exact List.mem_cons_self _ _
        exact (List.dropWhile_sublist _).mem hsub
      have h1 := hall c2 (List.mem_reverse.mp hmem)
      have h2 := dropWhile_head_not hdd
      simp only [Bool.not_eq_false'] at h2
      rw [h1] at h2
      cases h2

theorem make_new_name_of_split {old : String} {w : Nat} {pre run post : List Char}
    (h : lastRunSplit (stemOf old).data = some (pre, run, post)) :
    make_new_name old w = ⟨pre ++ zfill w run ++ post⟩ ++ suffixOf old := by
  simp only [make_new_name]
  rw [h]

theorem make_new_name_of_none {old : String} {w : Nat}
    (h : lastRunSplit (stemOf old).data = none) : make_new_name old w = old := by
  simp only [make_new_name]
  rw [h]

theorem zfill_length {w : Nat} {s : List Char} (h : s.length ≤ w) :
    (zfill w s).length = w := by
  simp only [zfill, List.length_append, List.length_replicate]
  omega

theorem zfill_all_digit {w : Nat} {s : List Char} (h : ∀ c ∈ s, c.isDigit = true) :
    ∀ c ∈ zfill w s, c.isDigit = true := by
  intro c hc
  rcases List.mem_append.mp hc with hm | hm
  · rw [List.eq_of_mem_replicate hm]
    rfl
  · exact h c hm

theorem zfill_ne_nil {w : Nat} {s : List Char} (h : s ≠ []) : zfill w s ≠ [] := by
  simp only [zfill]
  intro h0
  rcases List.append_eq_nil.mp h0 with ⟨_, h2⟩
  exact h h2

theorem foldl_decValue_zeros (k : Nat) :
    List.foldl (fun a c => 10 * a + (c.toNat - '0'.toNat)) 0 (List.replicate k '0') = 0 := by
  induction k with
  | zero => rfl
  | succ m ih =>
    rw [List.replicate_succ, List.foldl_cons]
    exact ih

theorem decValue_zfill (w : Nat) (s : List Char) : decValue (zfill w s) = decValue s := by
  simp only [decValue, zfill, List.foldl_append, foldl_decValue_zeros]

/-- C7: `make_new_name` zero-pads the last digit run of the stem in place,
keeping the non-numeric prefix, the rest of the stem and the extension
unchanged; a stem without digits maps to itself; the planner's mapping pairs
each entry with its padded name and omits no-ops; and on
`img1.jpg, img2.jpg, img10.jpg` with width 2 the computed names are
`img01.jpg, img02.jpg, img10.jpg`. -/
theorem make_new_name_padding_spec (w : Nat) (names : List String) :
    (∀ (old : String) (pre run post : List Char),
        (stemOf old).data = pre ++ run ++ post →
        run ≠ [] → (∀ c ∈ run, c.isDigit = true) → (∀ c ∈ post, c.isDigit = false) →
        (pre = [] ∨ ∃ c l, pre = l ++ [c] ∧ c.isDigit = false) →
        make_new_name old w = ⟨pre ++ zfill w run ++ post⟩ ++ suffixOf old) ∧
    (∀ old : String, (∀ c ∈ (stemOf old).data, c.isDigit = false) →
        make_new_name old w = old) ∧
    (∀ p ∈ plan_mappings names w, p.2 = make_new_name p.1 w ∧ p.2 ≠ p.1) ∧
    (∀ e ∈ entriesOf names, make_new_name e.1 w ≠ e.1 →
        (e.1, make_new_name e.1 w) ∈ plan_mappings names w) ∧
    (plan_mappings ["img1.jpg", "img2.jpg", "img10.jpg"] 2 =
        [("img1.jpg", "img01.jpg"), ("img2.jpg", "img02.jpg")] ∧
      make_new_name "img1.jpg" 2 = "img01.jpg" ∧
      make_new_name "img2.jpg" 2 = "img02.jpg" ∧
      make_new_name "img10.jpg" 2 = "img10.jpg") := by
  refine ⟨?_, ?_, ?_, ?_, by decide⟩
  · intro old pre run post hstem hrun_ne hrun hpost hpre
    have hsplit : lastRunSplit (stemOf old).data = some (pre, run, post) := by
      rw [hstem]
      exact lastRunSplit_append hrun_ne hrun hpost hpre
    exact make_new_name_of_split hsplit
  · intro old hnd
    exact make_new_name_of_none (lastRunSplit_eq_none_iff.mpr hnd)
  · intro p hp
    rcases List.mem_filterMap.mp hp with ⟨e, he, hfe⟩
    simp only at hfe
    split at hfe
    · rename_i hne
      cases hfe
      exact ⟨rfl, fun hcontra => hne (Eq.symm hcontra)⟩
    · cases hfe
  · intro e he hne
    apply List.mem_filterMap.mpr
    refine ⟨e, he, ?_⟩
    simp only
    rw [if_pos (fun hcontra => hne (by rw [← hcontra]))]

theorem make_new_name_padding_spec_witness :
    plan_mappings ["img1.jpg", "img2.jpg", "img10.jpg"] 2 =
        [("img1.jpg", "img01.jpg"), ("img2.jpg", "img02.jpg")] ∧
      make_new_name "img1.jpg" 2 = "img01.jpg" ∧
      make_new_name "img2.jpg" 2 = "img02.jpg" ∧
      make_new_name "img10.jpg" 2 = "img10.jpg" :=
  (make_new_name_padding_spec 2 []).2.2.2.2

theorem isHidden_mk_cons (c : Char) (t : List Char) :
    isHidden ⟨c :: t⟩ = (c == '.') := rfl

theorem data_mk (l : List Char) : (String.mk l).data = l := rfl

/-- Replacing the last digit run of a stem by another nonempty digit string
and re-appending the suffix splits back into the same stem/suffix shape. -/
theorem splitExt_padded (n : String) (hn : isHidden n = false)
    (pre run post mid : List Char)
    (hstem : (stemOf n).data = pre ++ run ++ post)
    (hrun_ne : run ≠ []) (hmid_ne : mid ≠ [])
    (hrun : ∀ c ∈ run, c.isDigit = true) (hmid : ∀ c ∈ mid, c.isDigit = true)
    (hpost : ∀ c ∈ post, c.isDigit = false) :
    splitExt (⟨pre ++ mid ++ post⟩ ++ suffixOf n) = (⟨pre ++ mid ++ post⟩, suffixOf n) := by
  have hs2ne : pre ++ mid ++ post ≠ [] := by
    intro h0
    rcases List.append_eq_nil.mp h0 with ⟨h1, _⟩
    rcases List.append_eq_nil.mp h1 with ⟨_, h3⟩
    exact hmid_ne h3
  cases hrs : revSplit n.data.reverse with
  | none =>
    have hsx : splitExt n = (n, "") := by rw [splitExt, hrs]
    have hstemn : stemOf n = n := by rw [stemOf, hsx]
    have hsufn : suffixOf n = "" := by rw [suffixOf, hsx]
    have hnodot : '.' ∉ n.data := by
      have := revSplit_eq_none hrs
      intro hm
      exact this (List.mem_reverse.mpr hm)
    rw [hstemn] at hstem
    have hs2nodot : '.' ∉ pre ++ mid ++ post := by
      intro hm
      rcases List.mem_append.mp hm with hm2 | hpostm
      · rcases List.mem_append.mp hm2 with hprem | hmidm
        · exact hnodot (by rw [hstem]; exact List.mem_append_left _ (List.mem_append_left _ hprem))
        · have := hmid '.' hmidm
          cases this
      · exact hnodot (by rw [hstem]; exact List.mem_append_right _ hpostm)
    rw [hsufn, String.append_empty, splitExt]
    rw [show (String.mk (pre ++ mid ++ post)).data.reverse = (pre ++ mid ++ post).reverse from rfl]
    rw [revSplit_of_no_dot (fun hm => hs2nodot (List.mem_reverse.mp hm))]
  | some p =>
    obtain ⟨a, b⟩ := p
    rcases revSplit_eq_some hrs with ⟨hrl, hadot⟩
    by_cases hab : a.isEmpty || b.isEmpty
    · have hsx : splitExt n = (n, "") := by
        simp only [splitExt, hrs]
        rw [if_pos hab]
      have hstemn : stemOf n = n := by rw [stemOf, hsx]
      have hsufn : suffixOf n = "" := by rw [suffixOf, hsx]
      rw [hstemn] at hstem
      rcases Bool.or_eq_true_iff.mp hab with hae | hbe
      · -- a = []: the name ends with a dot
        have ha : a = [] := List.isEmpty_iff.mp hae
        subst ha
        have hdata : n.data = b.reverse ++ ['.'] := by
          have : n.data.reverse = '.' :: b := by simpa using hrl
          calc n.data = n.data.reverse.reverse := (List.reverse_reverse _).symm
            _ = ('.' :: b).reverse := by rw [this]
            _ = b.reverse ++ ['.'] := by simp
        have hpost_ne : post ≠ [] := by
          intro h0
          rw [h0, List.append_nil] at hstem
          have h1 : n.data.getLast? = some '.' := by
            rw [hdata, List.getLast?_concat]
          have h2 : n.data.getLast? = run.getLast? := by
            rw [hstem, List.getLast?_append_of_ne_nil _ hrun_ne]
          cases hrl2 : run.getLast? with
          | none => rw [hrl2] at h2; rw [h2] at h1; cases h1
          | some rl =>
            have hrlmem : rl ∈ run := by
              have := List.getLast?_eq_getLast run hrun_ne
              rw [this] at hrl2
              cases hrl2
              exact List.getLast_mem _
            have hdig := hrun rl hrlmem
            rw [hrl2] at h2
            rw [h2] at h1
            cases h1
            cases hdig
        have hpl : post.getLast? = some '.' := by
          have h1 : n.data.getLast? = some '.' := by
            rw [hdata, List.getLast?_concat]
          rw [hstem, List.getLast?_append_of_ne_nil _ hpost_ne] at h1
          exact h1
        obtain ⟨q, hq⟩ : ∃ q, post = q ++ ['.'] := by
          refine ⟨post.dropLast, ?_⟩
          have := List.dropLast_append_getLast hpost_ne
          have h2 := List.getLast?_eq_getLast post hpost_ne
          rw [hpl] at h2
          have h3 : post.getLast hpost_ne = '.' := (Option.some.inj h2).symm
          rw [← h3]
          exact this.symm
        rw [hsufn, String.append_empty, splitExt]
        have hrev2 : (String.mk (pre ++ mid ++ post)).data.reverse =
            '.' :: (q.reverse ++ (pre ++ mid).reverse) := by
          rw [data_mk, hq]
          simp
        rw [hrev2, revSplit]
        simp
      · -- b = []: the name starts with a dot, contradicting non-hiddenness
        have hb : b = [] := List.isEmpty_iff.mp hbe
        subst hb
        have hdata : n.data = '.' :: a.reverse := by
          have : n.data.reverse = a ++ ['.'] := by simpa using hrl
          calc n.data = n.data.reverse.reverse := (List.reverse_reverse _).symm
            _ = (a ++ ['.']).reverse := by rw [this]
            _ = '.' :: a.reverse := by simp
        have : isHidden n = true := by
          have he : n = ⟨'.' :: a.reverse⟩ := by
            apply String.ext
            rw [hdata]
          rw [he, isHidden_mk_cons]
          rfl
        rw [this] at hn
        cases hn
    · -- proper suffix: stem = b.reverse, suffix = '.' :: a.reverse
      have hane : a ≠ [] := by
        intro h0
        exact hab (by rw [h0]; rfl)
      have hbne2 : ¬ (a.isEmpty || b.isEmpty) = true := hab
      have hsx : splitExt n = (⟨b.reverse⟩, ⟨'.' :: a.reverse⟩) := by
        simp only [splitExt, hrs]
        rw [if_neg hab]
      have hsufn : suffixOf n = ⟨'.' :: a.reverse⟩ := by rw [suffixOf, hsx]
      rw [hsufn, splitExt]
      have hrev2 : (String.mk (pre ++ mid ++ post) ++ String.mk ('.' :: a.reverse)).data.reverse =
          a ++ '.' :: (pre ++ mid ++ post).reverse := by
        rw [String.data_append, data_mk, data_mk]
        simp
      rw [hrev2, revSplit_append hadot]
      have hae : a.isEmpty = false := List.isEmpty_eq_false.mpr hane
      have hse : (pre ++ mid ++ post).reverse.isEmpty = false := by
        rw [List.isEmpty_eq_false]
        intro h0
        exact hs2ne (List.reverse_eq_nil_iff.mp h0)
      simp only [hae, hse, Bool.or_self, Bool.false_eq_true, if_neg, not_false_iff]
      rw [List.reverse_reverse]

theorem isHidden_of_data_cons {x : String} {c : Char} {t : List Char} (hx : x.data = c :: t) :
    isHidden x = (c == '.') := by
  rw [show x = ⟨c :: t⟩ from String.ext hx, isHidden_mk_cons]

theorem extract_none_iff {s : String} :
    extract_number_token s = none ↔ lastRunSplit s.data = none := by
  unfold extract_number_token
  cases hls : lastRunSplit s.data with
  | none => simp
  | some p => simp

/-- A non-hidden file with a numeric token keeps its integer value under
padding, the token becoming its zero-filled form; the result is again
non-hidden. -/
theorem token_preserved (n : String) (w : Nat) (v : Nat) (t : String)
    (hn : isHidden n = false)
    (hex : extract_number_token (stemOf n) = some (v, t)) :
    isHidden (make_new_name n w) = false ∧
    extract_number_token (stemOf (make_new_name n w)) = some (v, ⟨zfill w t.data⟩) := by
  unfold extract_number_token at hex
  cases hls : lastRunSplit (stemOf n).data with
  | none => rw [hls] at hex; cases hex
  | some p =>
    obtain ⟨pre, run, post⟩ := p
    rw [hls] at hex
    simp only [Option.some.injEq, Prod.mk.injEq] at hex
    obtain ⟨hv, ht⟩ := hex
    have htdata : t.data = run := by rw [← ht]
    rcases lastRunSplit_eq_some hls with ⟨hdecomp, hrun_ne, hrun, hpost, hpre⟩
    have hmk : make_new_name n w = ⟨pre ++ zfill w run ++ post⟩ ++ suffixOf n :=
      make_new_name_of_split hls
    have hsx2 : splitExt (⟨pre ++ zfill w run ++ post⟩ ++ suffixOf n) =
        (⟨pre ++ zfill w run ++ post⟩, suffixOf n) :=
      splitExt_padded n hn pre run post (zfill w run) hdecomp hrun_ne
        (zfill_ne_nil hrun_ne) hrun (zfill_all_digit hrun) hpost
    have hstem2 : stemOf (make_new_name n w) = ⟨pre ++ zfill w run ++ post⟩ := by
      rw [hmk, stemOf, hsx2]
    constructor
    · -- the padded name is not hidden
      have hdata2 : (make_new_name n w).data =
          pre ++ zfill w run ++ post ++ (suffixOf n).data := by
        rw [hmk, String.data_append, data_mk, List.append_assoc]
      cases hprec : pre with
      | nil =>
        cases hzf : zfill w run with
        | nil => exact absurd hzf (zfill_ne_nil hrun_ne)
        | cons zc ztail =>
          have hzd : zc.isDigit = true :=
            zfill_all_digit hrun zc (by rw [hzf]; exact List.mem_cons_self _ _)
          have hdata3 : (make_new_name n w).data =
              zc :: (ztail ++ post ++ (suffixOf n).data) := by
            rw [hdata2, hprec, hzf]
            simp
          rw [isHidden_of_data_cons hdata3]
          have : zc ≠ '.' := by
            intro h0
            rw [h0] at hzd
            cases hzd
          simp [this]
      | cons p0 ptail =>
        have hndata : n.data = p0 :: (ptail ++ run ++ post ++ (suffixOf n).data) := by
          have h1 : (stemOf n ++ suffixOf n) = n := stem_append_suffix n
          have h2 : (stemOf n).data ++ (suffixOf n).data = n.data := by
            rw [← String.data_append, h1]
          rw [← h2, hdecomp, hprec]
          simp
        have hdata3 : (make_new_name n w).data =
            p0 :: (ptail ++ zfill w run ++ post ++ (suffixOf n).data) := by
          rw [hdata2, hprec]
          simp
        rw [isHidden_of_data_cons hdata3]
        rw [isHidden_of_data_cons hndata] at hn
        exact hn
    · -- the padded token
      rw [hstem2]
      unfold extract_number_token
      have hls2 : lastRunSplit (String.mk (pre ++ zfill w run ++ post)).data =
          some (pre, zfill w run, post) := by
        rw [data_mk]
        exact lastRunSplit_append (zfill_ne_nil hrun_ne) (zfill_all_digit hrun) hpost hpre
      rw [hls2]
      show some (decValue (zfill w run), (⟨zfill w run⟩ : String)) = some (v, ⟨zfill w t.data⟩)
      rw [decValue_zfill, hv, htdata]

theorem isHidden_make_eq_false (n : String) (w : Nat) (hn : isHidden n = false) :
    isHidden (make_new_name n w) = false := by
  cases hex : extract_number_token (stemOf n) with
  | none =>
    rw [make_new_name_of_none (extract_none_iff.mp hex)]
    exact hn
  | some vt =>
    exact (token_preserved n w vt.1 vt.2 hn (by rw [hex])).1

theorem entriesOf_mem_inv {names : List String} {e : SeqEntry} (he : e ∈ entriesOf names) :
    e.1 ∈ names ∧ isHidden e.1 = false ∧
      extract_number_token (stemOf e.1) = some (e.2.1, e.2.2) := by
  rcases List.mem_filterMap.mp he with ⟨n, hn, hsome⟩
  have hn2 : n ∈ (sortBy strLe names).filter (fun n => !isHidden n) := hn
  rcases List.mem_filter.mp hn2 with ⟨hsorted, hnh⟩
  have hmemn : n ∈ names := (sortBy_perm _ _).mem_iff.mp hsorted
  have hnh2 : isHidden n = false := by
    cases hb : isHidden n
    · rfl
    · rw [hb] at hnh; cases hnh
  cases hex : extract_number_token (stemOf n) with
  | none => rw [hex] at hsome; cases hsome
  | some vt =>
    rw [hex] at hsome
    have hsome2 : (n, vt.1, vt.2) = e := Option.some.inj hsome
    rw [← hsome2]
    exact ⟨hmemn, hnh2, by rw [hex]⟩

theorem entriesOf_mem_of (names : List String) {n : String} {v : Nat} {t : String}
    (hnn : n ∈ names) (hh : isHidden n = false)
    (hex : extract_number_token (stemOf n) = some (v, t)) :
    (n, v, t) ∈ entriesOf names := by
  apply List.mem_filterMap.mpr
  refine ⟨n, ?_, by rw [hex]; rfl⟩
  show n ∈ (sortBy strLe names).filter (fun n => !isHidden n)
  exact List.mem_filter.mpr ⟨(sortBy_perm _ _).mem_iff.mpr hnn, by simp [hh]⟩

/-- Applying the planner's mapping replaces each non-hidden name by its padded
form and leaves hidden names alone. -/
theorem applyMapping_plan (names : List String) (w : Nat) :
    applyMapping (plan_mappings names w) names =
      names.map (fun n => if isHidden n = true then n else make_new_name n w) := by
  unfold applyMapping
  apply List.map_congr_left
  intro n hn
  by_cases hh : isHidden n = true
  · have hfind : (plan_mappings names w).find? (fun p => p.1 == n) = none := by
      rw [List.find?_eq_none]
      intro p hp
      rcases List.mem_filterMap.mp hp with ⟨e, he, hfe⟩
      simp only at hfe
      split at hfe
      · cases hfe
        intro hbeq
        have heq : e.1 = n := by simpa using hbeq
        have := (entriesOf_mem_inv he).2.1
        rw [heq, hh] at this
        cases this
      · cases hfe
    rw [hfind, if_pos hh]
  · have hh2 : isHidden n = false := by
      cases hb : isHidden n
      · rfl
      · exact absurd hb hh
    rw [if_neg hh]
    cases hfind : (plan_mappings names w).find? (fun p => p.1 == n) with
    | none =>
      show n = make_new_name n w
      by_cases hmk : make_new_name n w = n
      · rw [hmk]
      · exfalso
        cases hex : extract_number_token (stemOf n) with
        | none => exact hmk (make_new_name_of_none (extract_none_iff.mp hex))
        | some vt =>
          have hmem : (n, vt.1, vt.2) ∈ entriesOf names :=
            entriesOf_mem_of names hn hh2 (by rw [hex])
          have hplan : (n, make_new_name n w) ∈ plan_mappings names w := by
            apply List.mem_filterMap.mpr
            refine ⟨(n, vt.1, vt.2), hmem, ?_⟩
            simp only
            rw [if_pos (fun hcc => hmk hcc.symm)]
          have := List.find?_eq_none.mp hfind _ hplan
          simp at this
    | some q =>
      have hq1 : q.1 = n := by
        have := List.find?_some hfind
        simpa using this
      have hqmem := List.mem_of_find?_eq_some hfind
      rcases List.mem_filterMap.mp hqmem with ⟨e, he, hfe⟩
      simp only at hfe
      split at hfe
      · cases hfe
        show make_new_name e.1 w = make_new_name n w
        rw [show e.1 = n from hq1]
      · cases hfe

theorem entriesOf_perm (names : List String) :
    (entriesOf names).Perm ((names.filter (fun n => !isHidden n)).filterMap
      (fun n => (extract_number_token (stemOf n)).map (fun vt => (n, vt.1, vt.2)))) := by
  unfold entriesOf
  exact List.Perm.filterMap _ (List.Perm.filter _ (sortBy_perm _ _))

theorem filter_hidden_map_make (w : Nat) (names : List String) :
    ((names.map (fun n => if isHidden n = true then n else make_new_name n w)).filter
      (fun n => !isHidden n)) =
    ((names.filter (fun n => !isHidden n)).map (fun n => make_new_name n w)) := by
  induction names with
  | nil => rfl
  | cons n l ih =>
    rw [List.map_cons, List.filter_cons, List.filter_cons]
    by_cases hh : isHidden n = true
    · rw [if_pos hh]
      have h1 : (!isHidden n) = false := by rw [hh]; rfl
      rw [h1]
      simp only [Bool.false_eq_true, if_neg, not_false_iff]
      exact ih
    · have hh2 : isHidden n = false := by
        cases hb : isHidden n
        · rfl
        · exact absurd hb hh
      rw [if_neg hh]
      have h1 : (!isHidden n) = true := by rw [hh2]; rfl
      have h2 : (!isHidden (make_new_name n w)) = true := by
        rw [isHidden_make_eq_false n w hh2]
        rfl
      rw [h1, h2]
      simp only [if_pos]
      rw [List.map_cons]
      rw [ih]

theorem filterMap_entries_map_make (w : Nat) :
    ∀ (l : List String), (∀ n ∈ l, isHidden n = false) →
    ((l.map (fun n => make_new_name n w)).filterMap
        (fun n => (extract_number_token (stemOf n)).map (fun vt => (n, vt.1, vt.2)))) =
      ((l.filterMap (fun n => (extract_number_token (stemOf n)).map (fun vt => (n, vt.1, vt.2)))).map
        (fun e => (make_new_name e.1 w, e.2.1, (⟨zfill w e.2.2.data⟩ : String)))) := by
  intro l hl
  induction l with
  | nil => rfl
  | cons n l ih =>
    have hn := hl n (List.mem_cons_self _ _)
    have hrest : ∀ m ∈ l, isHidden m = false := fun m hm => hl m (List.mem_cons_of_mem _ hm)
    rw [List.map_cons, List.filterMap_cons, List.filterMap_cons]
    cases hex : extract_number_token (stemOf n) with
    | none =>
      have hmk : make_new_name n w = n := make_new_name_of_none (extract_none_iff.mp hex)
      rw [hmk, hex]
      exact ih hrest
    | some vt =>
      obtain ⟨v, t⟩ := vt
      rcases token_preserved n w v t hn (by rw [hex]) with ⟨_, hex2⟩
      rw [hex2]
      simp only [Option.map_some']
      rw [List.map_cons]
      rw [ih hrest]

theorem listMax_perm {l1 l2 : List Nat} (h : l1.Perm l2) : listMax l1 = listMax l2 := by
  rcases eq_or_ne l1 [] with rfl | hne
  · rw [List.perm_nil.mp h.symm]
  · have hne2 : l2 ≠ [] := by
      intro h0
      rw [h0] at h
      exact hne (List.perm_nil.mp h)
    apply Nat.le_antisymm
    · exact le_listMax (h.mem_iff.mp (listMax_mem hne))
    · exact le_listMax (h.mem_iff.mpr (listMax_mem hne2))

theorem numsOf_ne_nil_of_consecutive {ns : List String} (h : consecutiveOf ns = true) :
    numsOf ns ≠ [] := by
  intro h0
  have hfalse : consecutiveOf ns = false := by
    simp only [consecutiveOf, h0]
    rfl
  rw [hfalse] at h
  cases h

theorem analyze_dir_some_inv {d : String} {names : List String} {mf : Nat} {r : Report}
    (h : analyze_dir d names mf = some r) :
    consecutiveOf names = true ∧ r.max = listMax (numsOf names) ∧
    r.desired_width = desired_widthOf names := by
  unfold analyze_dir at h
  split at h
  · cases h
  · split at h
    · cases h
    · split at h
      · cases h
      · rename_i hcons
        split at h
        · cases h
          refine ⟨?_, rfl, rfl⟩
          cases hb : consecutiveOf names
          · exact absurd hb hcons
          · rfl
        · cases h

theorem analyze_none_of_fully_padded (d : String) (ns : List String) (mf : Nat)
    (hfp : fully_paddedOf ns = true) : analyze_dir d ns mf = none := by
  unfold analyze_dir
  by_cases h1 : (filesOf ns).length < mf
  · rw [if_pos h1]
  · rw [if_neg h1]
    by_cases h2 : (entriesOf ns).length < mf
    · rw [if_pos h2]
    · rw [if_neg h2]
      by_cases h3 : consecutiveOf ns = false
      · rw [if_pos h3]
      · rw [if_neg h3]
        rw [if_neg (fun hc => by cases hfp.symm.trans hc.2)]

/-- C2 amended: for a flagged directory none of whose token strings is longer
than the desired width, applying the planner's mapping (width = digit count
of the maximum, no-ops omitted) and re-running the analyzer yields null:
after padding every token has exactly the desired width, so the directory is
fully padded. -/
theorem roundtrip_padded_analyze_none (d d2 : String) (names : List String) (mf : Nat)
    (r : Report)
    (h : analyze_dir d names mf = some r)
    (hlen : ∀ e ∈ entriesOf names, e.2.2.length ≤ r.desired_width) :
    analyze_dir d2 (applyMapping (plan_mappings names r.desired_width) names) mf = none := by
  obtain ⟨hcons, hmax, hwd⟩ := analyze_dir_some_inv h
  have happ := applyMapping_plan names r.desired_width
  have hperm2 : (entriesOf (applyMapping (plan_mappings names r.desired_width) names)).Perm
      ((entriesOf names).map
        (fun e => (make_new_name e.1 r.desired_width, e.2.1,
          (⟨zfill r.desired_width e.2.2.data⟩ : String)))) := by
    rw [happ]
    have p1 := entriesOf_perm
      (names.map (fun n => if isHidden n = true then n else make_new_name n r.desired_width))
    rw [filter_hidden_map_make] at p1
    rw [filterMap_entries_map_make r.desired_width (names.filter (fun n => !isHidden n))
      (fun n hn => by
        have hnn := (List.mem_filter.mp hn).2
        cases hb : isHidden n
        · rfl
        · rw [hb] at hnn; cases hnn)] at p1
    have p2 := (entriesOf_perm names).map
      (fun e : SeqEntry => (make_new_name e.1 r.desired_width, e.2.1,
        (⟨zfill r.desired_width e.2.2.data⟩ : String)))
    exact p1.trans p2.symm
  have hnumsne : numsOf names ≠ [] := numsOf_ne_nil_of_consecutive hcons
  have hentne : entriesOf names ≠ [] := by
    intro h0
    apply hnumsne
    rw [numsOf, h0]
    rfl
  have hents2ne : entriesOf (applyMapping (plan_mappings names r.desired_width) names) ≠ [] := by
    intro h0
    rw [h0] at hperm2
    have hmapnil := List.perm_nil.mp hperm2.symm
    exact hentne (List.map_eq_nil_iff.mp hmapnil)
  have hnp : (numsOf (applyMapping (plan_mappings names r.desired_width) names)).Perm
      (numsOf names) := by
    have hm := hperm2.map (fun e : SeqEntry => e.2.1)
    rw [List.map_map] at hm
    exact hm
  have hmax2 : listMax (numsOf (applyMapping (plan_mappings names r.desired_width) names)) =
      listMax (numsOf names) := listMax_perm hnp
  have hw2 : desired_widthOf (applyMapping (plan_mappings names r.desired_width) names) =
      r.desired_width := by
    unfold desired_widthOf
    rw [hmax2]
    exact hwd.symm
  have htl2 : ∀ e ∈ entriesOf (applyMapping (plan_mappings names r.desired_width) names),
      e.2.2.length = desired_widthOf (applyMapping (plan_mappings names r.desired_width) names) := by
    intro e he
    rcases List.mem_map.mp (hperm2.mem_iff.mp he) with ⟨e0, he0, hpe⟩
    rw [← hpe, hw2]
    show (zfill r.desired_width e0.2.2.data).length = r.desired_width
    exact zfill_length (hlen e0 he0)
  exact analyze_none_of_fully_padded d2 _ mf
    ((fully_padded_iff _ hents2ne).mpr htl2)

theorem roundtrip_padded_analyze_none_witness :
    analyze_dir "d2" (applyMapping (plan_mappings ["b9.x", "a10.x"]
        (({
          dir := "d"
          count := 2
          min := 9
          max := 10
          desired_width := 2
          token_lengths_sample := [1, 2]
          lex_order_sample := ["a10.x", "b9.x"]
          numeric_order_sample := ["b9.x", "a10.x"] } : Report).desired_width))
      ["b9.x", "a10.x"]) 2 = none :=
  roundtrip_padded_analyze_none "d" "d2" ["b9.x", "a10.x"] 2
    {
      dir := "d"
      count := 2
      min := 9
      max := 10
      desired_width := 2
      token_lengths_sample := [1, 2]
      lex_order_sample := ["a10.x", "b9.x"]
      numeric_order_sample := ["b9.x", "a10.x"] }
    (by decide) (by decide)

/-! ### Two-phase rename executor lemmas -/

theorem runPhase1_cons_none {fs : FS} {p : String × String} {tmp : String} {fail : Bool}
    (h : renameStep fs p.1 tmp fail = none) (l : List ((String × String) × String × Bool)) :
    runPhase1 fs ((p, tmp, fail) :: l) = (fs, [], false) := by
  rw [runPhase1, h]

theorem runPhase1_cons_some {fs fs1 : FS} {p : String × String} {tmp : String} {fail : Bool}
    (h : renameStep fs p.1 tmp fail = some fs1) (l : List ((String × String) × String × Bool)) :
    runPhase1 fs ((p, tmp, fail) :: l) =
      (match runPhase1 fs1 l with
       | (fs2, tm, ok) => (fs2, (tmp, p.2) :: tm, ok)) := by
  rw [runPhase1, h]

theorem runPhase2_cons_chk {srcs : Finset String} {force : Bool} {fs : FS}
    {td : String × String} {fail : Bool}
    (hchk : td.2 ∈ fs ∧ td.2 ∉ srcs ∧ force = false)
    (l : List ((String × String) × Bool)) :
    runPhase2 srcs force fs ((td, fail) :: l) = (fs, 0, false) := by
  rw [runPhase2, if_pos hchk]

theorem runPhase2_cons_none {srcs : Finset String} {force : Bool} {fs : FS}
    {td : String × String} {fail : Bool}
    (hchk : ¬(td.2 ∈ fs ∧ td.2 ∉ srcs ∧ force = false))
    (h : renameStep fs td.1 td.2 fail = none)
    (l : List ((String × String) × Bool)) :
    runPhase2 srcs force fs ((td, fail) :: l) = (fs, 0, false) := by
  rw [runPhase2, if_neg hchk, h]

theorem runPhase2_cons_some {srcs : Finset String} {force : Bool} {fs fs1 : FS}
    {td : String × String} {fail : Bool}
    (hchk : ¬(td.2 ∈ fs ∧ td.2 ∉ srcs ∧ force = false))
    (h : renameStep fs td.1 td.2 fail = some fs1)
    (l : List ((String × String) × Bool)) :
    runPhase2 srcs force fs ((td, fail) :: l) =
      (match runPhase2 srcs force fs1 l with
       | (fs2, s, ok) => (fs2, s + 1, ok)) := by
  rw [runPhase2, if_neg hchk, h]

theorem runPhase1_append (fs : FS) (l1 l2 : List ((String × String) × String × Bool)) :
    runPhase1 fs (l1 ++ l2) =
      match runPhase1 fs l1 with
      | (fs1, tm1, true) =>
        match runPhase1 fs1 l2 with
        | (fs2, tm2, ok) => (fs2, tm1 ++ tm2, ok)
      | (fs1, tm1, false) => (fs1, tm1, false) := by
  induction l1 generalizing fs with
  | nil =>
    cases h2 : runPhase1 fs l2 with
    | mk fs2 p =>
      obtain ⟨tm2, ok⟩ := p
      simp [runPhase1, h2]
  | cons q l1 ih =>
    obtain ⟨p, tmp, fail⟩ := q
    cases hstep : renameStep fs p.1 tmp fail with
    | none =>
      rw [List.cons_append, runPhase1_cons_none hstep, runPhase1_cons_none hstep]
    | some fs1 =>
      rw [List.cons_append, runPhase1_cons_some hstep, runPhase1_cons_some hstep, ih fs1]
      cases h1 : runPhase1 fs1 l1 with
      | mk fsa pa =>
        obtain ⟨tma, oka⟩ := pa
        cases oka with
        | true =>
          cases h2 : runPhase1 fsa l2 with
          | mk fsb pb =>
            obtain ⟨tmb, okb⟩ := pb
            simp
        | false => simp

theorem runPhase2_append (srcs : Finset String) (force : Bool) (fs : FS)
    (l1 l2 : List ((String × String) × Bool)) :
    runPhase2 srcs force fs (l1 ++ l2) =
      match runPhase2 srcs force fs l1 with
      | (fs1, s1, true) =>
        match runPhase2 srcs force fs1 l2 with
        | (fs2, s2, ok) => (fs2, s1 + s2, ok)
      | (fs1, s1, false) => (fs1, s1, false) := by
  induction l1 generalizing fs with
  | nil =>
    cases h2 : runPhase2 srcs force fs l2 with
    | mk fs2 p =>
      obtain ⟨s2, ok⟩ := p
      simp [runPhase2, h2]
  | cons y l1 ih =>
    obtain ⟨td, fail⟩ := y
    by_cases hchk : td.2 ∈ fs ∧ td.2 ∉ srcs ∧ force = false
    · rw [List.cons_append, runPhase2_cons_chk hchk, runPhase2_cons_chk hchk]
    · cases hstep : renameStep fs td.1 td.2 fail with
      | none =>
        rw [List.cons_append, runPhase2_cons_none hchk hstep, runPhase2_cons_none hchk hstep]
      | some fs1 =>
        rw [List.cons_append, runPhase2_cons_some hchk hstep, runPhase2_cons_some hchk hstep,
          ih fs1]
        cases h1 : runPhase2 srcs force fs1 l1 with
        | mk fsa pa =>
          obtain ⟨sa, oka⟩ := pa
          cases oka with
          | true =>
            cases h2 : runPhase2 srcs force fsa l2 with
            | mk fsb pb =>
              obtain ⟨sb, okb⟩ := pb
              simp
              omega
          | false => simp

theorem runPhase1_mem_keep {fs fs' : FS} {l : List ((String × String) × String × Bool)}
    {tm : List (String × String)} {ok : Bool}
    (h : runPhase1 fs l = (fs', tm, ok)) {x : String}
    (hx : x ∈ fs) (hno : ∀ q ∈ l, q.1.1 ≠ x) : x ∈ fs' := by
  induction l generalizing fs tm with
  | nil =>
    obtain ⟨rfl, -, -⟩ := Prod.mk.injEq .. ▸ h
    exact hx
  | cons q l ih =>
    obtain ⟨p, tmp, fail⟩ := q
    cases hstep : renameStep fs p.1 tmp fail with
    | none =>
      rw [runPhase1_cons_none hstep] at h
      obtain ⟨rfl, -, -⟩ := Prod.mk.injEq .. ▸ h
      exact hx
    | some fs1 =>
      rw [runPhase1_cons_some hstep] at h
      cases h1 : runPhase1 fs1 l with
      | mk fsa pa =>
        obtain ⟨tma, oka⟩ := pa
        rw [h1] at h
        obtain ⟨rfl, -, -⟩ := Prod.mk.injEq .. ▸ h
        have hfs1 : x ∈ fs1 := by
          have hne : p.1 ≠ x := hno (p, tmp, fail) (List.mem_cons_self _ _)
          unfold renameStep at hstep
          by_cases hcond : fail = true ∨ p.1 ∉ fs
          · rw [if_pos hcond] at hstep; exact absurd hstep (by simp)
          · rw [if_neg hcond] at hstep
            have : insert tmp (fs.erase p.1) = fs1 := Option.some.inj hstep
            rw [← this]
            exact Finset.mem_insert_of_mem (Finset.mem_erase.mpr ⟨fun hc => hne hc.symm, hx⟩)
        exact ih h1 hfs1 (fun q hq => hno q (List.mem_cons_of_mem _ hq))

theorem runPhase1_mem_out {fs fs' : FS} {l : List ((String × String) × String × Bool)}
    {tm : List (String × String)} {ok : Bool}
    (h : runPhase1 fs l = (fs', tm, ok)) {x : String}
    (hx : x ∉ fs) (hno : ∀ q ∈ l, q.2.1 ≠ x) : x ∉ fs' := by
  induction l generalizing fs tm with
  | nil =>
    obtain ⟨rfl, -, -⟩ := Prod.mk.injEq .. ▸ h
    exact hx
  | cons q l ih =>
    obtain ⟨p, tmp, fail⟩ := q
    cases hstep : renameStep fs p.1 tmp fail with
    | none =>
      rw [runPhase1_cons_none hstep] at h
      obtain ⟨rfl, -, -⟩ := Prod.mk.injEq .. ▸ h
      exact hx
    | some fs1 =>
      rw [runPhase1_cons_some hstep] at h
      cases h1 : runPhase1 fs1 l with
      | mk fsa pa =>
        obtain ⟨tma, oka⟩ := pa
        rw [h1] at h
        obtain ⟨rfl, -, -⟩ := Prod.mk.injEq .. ▸ h
        have hfs1 : x ∉ fs1 := by
          have hne : tmp ≠ x := hno (p, tmp, fail) (List.mem_cons_self _ _)
          unfold renameStep at hstep
          by_cases hcond : fail = true ∨ p.1 ∉ fs
          · rw [if_pos hcond] at hstep; exact absurd hstep (by simp)
          · rw [if_neg hcond] at hstep
            have heq : insert tmp (fs.erase p.1) = fs1 := Option.some.inj hstep
            rw [← heq]
            intro hc
            rcases Finset.mem_insert.mp hc with hc | hc
            · exact hne hc.symm
            · exact hx (Finset.mem_of_mem_erase hc)
        exact ih h1 hfs1 (fun q hq => hno q (List.mem_cons_of_mem _ hq))

theorem runPhase2_mem_keep {srcs : Finset String} {force : Bool} {fs fs' : FS}
    {l : List ((String × String) × Bool)} {s : Nat} {ok : Bool}
    (h : runPhase2 srcs force fs l = (fs', s, ok)) {x : String}
    (hx : x ∈ fs) (hno : ∀ y ∈ l, y.1.1 ≠ x) : x ∈ fs' := by
  induction l generalizing fs s with
  | nil =>
    obtain ⟨rfl, -, -⟩ := Prod.mk.injEq .. ▸ h
    exact hx
  | cons y l ih =>
    obtain ⟨td, fail⟩ := y
    by_cases hchk : td.2 ∈ fs ∧ td.2 ∉ srcs ∧ force = false
    · rw [runPhase2_cons_chk hchk] at h
      obtain ⟨rfl, -, -⟩ := Prod.mk.injEq .. ▸ h
      exact hx
    · cases hstep : renameStep fs td.1 td.2 fail with
      | none =>
        rw [runPhase2_cons_none hchk hstep] at h
        obtain ⟨rfl, -, -⟩ := Prod.mk.injEq .. ▸ h
        exact hx
      | some fs1 =>
        rw [runPhase2_cons_some hchk hstep] at h
        cases h1 : runPhase2 srcs force fs1 l with
        | mk fsa pa =>
          obtain ⟨sa, oka⟩ := pa
          rw [h1] at h
          obtain ⟨rfl, -, -⟩ := Prod.mk.injEq .. ▸ h
          have hfs1 : x ∈ fs1 := by
            have hne : td.1 ≠ x := hno (td, fail) (List.mem_cons_self _ _)
            unfold renameStep at hstep
            by_cases hcond : fail = true ∨ td.1 ∉ fs
            · rw [if_pos hcond] at hstep; exact absurd hstep (by simp)
            · rw [if_neg hcond] at hstep
              have heq : insert td.2 (fs.erase td.1) = fs1 := Option.some.inj hstep
              rw [← heq]
              exact Finset.mem_insert_of_mem (Finset.mem_erase.mpr ⟨fun hc => hne hc.symm, hx⟩)
          exact ih h1 hfs1 (fun y hy => hno y (List.mem_cons_of_mem _ hy))

theorem runPhase2_mem_out {srcs : Finset String} {force : Bool} {fs fs' : FS}
    {l : List ((String × String) × Bool)} {s : Nat} {ok : Bool}
    (h : runPhase2 srcs force fs l = (fs', s, ok)) {x : String}
    (hx : x ∉ fs) (hno : ∀ y ∈ l, y.1.2 ≠ x) : x ∉ fs' := by
  induction l generalizing fs s with
  | nil =>
    obtain ⟨rfl, -, -⟩ := Prod.mk.injEq .. ▸ h
    exact hx
  | cons y l ih =>
    obtain ⟨td, fail⟩ := y
    by_cases hchk : td.2 ∈ fs ∧ td.2 ∉ srcs ∧ force = false
    · rw [runPhase2_cons_chk hchk] at h
      obtain ⟨rfl, -, -⟩ := Prod.mk.injEq .. ▸ h
      exact hx
    · cases hstep : renameStep fs td.1 td.2 fail with
      | none =>
        rw [runPhase2_cons_none hchk hstep] at h
        obtain ⟨rfl, -, -⟩ := Prod.mk.injEq .. ▸ h
        exact hx
      | some fs1 =>
        rw [runPhase2_cons_some hchk hstep] at h
        cases h1 : runPhase2 srcs force fs1 l with
        | mk fsa pa =>
          obtain ⟨sa, oka⟩ := pa
          rw [h1] at h
          obtain ⟨rfl, -, -⟩ := Prod.mk.injEq .. ▸ h
          have hfs1 : x ∉ fs1 := by
            have hne : td.2 ≠ x := hno (td, fail) (List.mem_cons_self _ _)
            unfold renameStep at hstep
            by_cases hcond : fail = true ∨ td.1 ∉ fs
            · rw [if_pos hcond] at hstep; exact absurd hstep (by simp)
            · rw [if_neg hcond] at hstep
              have heq : insert td.2 (fs.erase td.1) = fs1 := Option.some.inj hstep
              rw [← heq]
              intro hc
              rcases Finset.mem_insert.mp hc with hc | hc
              · exact hne hc.symm
              · exact hx (Finset.mem_of_mem_erase hc)
          exact ih h1 hfs1 (fun y hy => hno y (List.mem_cons_of_mem _ hy))

theorem renameStep_some_eq {fs fs1 : FS} {src dst : String} {fail : Bool}
    (h : renameStep fs src dst fail = some fs1) :
    fs1 = insert dst (fs.erase src) := by
  unfold renameStep at h
  by_cases hcond : fail = true ∨ src ∉ fs
  · rw [if_pos hcond] at h; exact absurd h (by simp)
  · rw [if_neg hcond] at h; exact (Option.some.inj h).symm

theorem runPhase1_ok_tm {fs fs' : FS} {l : List ((String × String) × String × Bool)}
    {tm : List (String × String)}
    (h : runPhase1 fs l = (fs', tm, true)) :
    tm = l.map (fun q => (q.2.1, q.1.2)) := by
  induction l generalizing fs tm with
  | nil =>
    injection h with hA h'
    injection h' with hB hC
    exact hB.symm
  | cons q l ih =>
    obtain ⟨p, tmp, fail⟩ := q
    cases hstep : renameStep fs p.1 tmp fail with
    | none =>
      rw [runPhase1_cons_none hstep] at h
      injection h with hA h'
      injection h' with hB hC
      exact Bool.noConfusion hC
    | some fs1 =>
      rw [runPhase1_cons_some hstep] at h
      cases h1 : runPhase1 fs1 l with
      | mk fsa pa =>
        obtain ⟨tma, oka⟩ := pa
        rw [h1] at h
        injection h with hA h'
        injection h' with hB hC
        subst hC
        subst hA
        rw [← hB, List.map_cons, ih h1]

theorem runPhase1_tmp_in {fs fs' : FS} {l : List ((String × String) × String × Bool)}
    {tm : List (String × String)}
    (h : runPhase1 fs l = (fs', tm, true))
    (hdisj : ∀ q ∈ l, ∀ r ∈ l, r.1.1 ≠ q.2.1) :
    ∀ q ∈ l, q.2.1 ∈ fs' := by
  induction l generalizing fs tm with
  | nil => intro q hq; exact absurd hq (List.not_mem_nil _)
  | cons a l ih =>
    obtain ⟨p, tmp, fail⟩ := a
    cases hstep : renameStep fs p.1 tmp fail with
    | none =>
      rw [runPhase1_cons_none hstep] at h
      injection h with hA h'
      injection h' with hB hC
      exact Bool.noConfusion hC
    | some fs1 =>
      rw [runPhase1_cons_some hstep] at h
      cases h1 : runPhase1 fs1 l with
      | mk fsa pa =>
        obtain ⟨tma, oka⟩ := pa
        rw [h1] at h
        injection h with hA h'
        injection h' with hB hC
        subst hC
        subst hA
        intro q hq
        rcases List.mem_cons.mp hq with rfl | hq
        · have htmp1 : tmp ∈ fs1 := by
            rw [renameStep_some_eq hstep]
            exact Finset.mem_insert_self _ _
          exact runPhase1_mem_keep h1 htmp1
            (fun r hr => hdisj (p, tmp, fail) (List.mem_cons_self _ _) r
              (List.mem_cons_of_mem _ hr))
        · exact ih h1
            (fun q' hq' r hr => hdisj q' (List.mem_cons_of_mem _ hq') r
              (List.mem_cons_of_mem _ hr)) q hq

theorem runPhase1_src_out {fs fs' : FS} {l : List ((String × String) × String × Bool)}
    {tm : List (String × String)}
    (h : runPhase1 fs l = (fs', tm, true))
    (hdisj : ∀ q ∈ l, ∀ r ∈ l, r.2.1 ≠ q.1.1) :
    ∀ q ∈ l, q.1.1 ∉ fs' := by
  induction l generalizing fs tm with
  | nil => intro q hq; exact absurd hq (List.not_mem_nil _)
  | cons a l ih =>
    obtain ⟨p, tmp, fail⟩ := a
    cases hstep : renameStep fs p.1 tmp fail with
    | none =>
      rw [runPhase1_cons_none hstep] at h
      injection h with hA h'
      injection h' with hB hC
      exact Bool.noConfusion hC
    | some fs1 =>
      rw [runPhase1_cons_some hstep] at h
      cases h1 : runPhase1 fs1 l with
      | mk fsa pa =>
        obtain ⟨tma, oka⟩ := pa
        rw [h1] at h
        injection h with hA h'
        injection h' with hB hC
        subst hC
        subst hA
        intro q hq
        rcases List.mem_cons.mp hq with rfl | hq
        · have hsrc1 : p.1 ∉ fs1 := by
            rw [renameStep_some_eq hstep]
            intro hc
            rcases Finset.mem_insert.mp hc with hc | hc
            · exact hdisj (p, tmp, fail) (List.mem_cons_self _ _) (p, tmp, fail)
                (List.mem_cons_self _ _) hc.symm
            · exact (Finset.mem_erase.mp hc).1 rfl
          exact runPhase1_mem_out h1 hsrc1
            (fun r hr => hdisj (p, tmp, fail) (List.mem_cons_self _ _) r
              (List.mem_cons_of_mem _ hr))
        · exact ih h1
            (fun q' hq' r hr => hdisj q' (List.mem_cons_of_mem _ hq') r
              (List.mem_cons_of_mem _ hr)) q hq

theorem runPhase1_append_ok {fs fsa : FS} {l1 l2 : List ((String × String) × String × Bool)}
    {tma : List (String × String)}
    (h1 : runPhase1 fs l1 = (fsa, tma, true)) :
    runPhase1 fs (l1 ++ l2) =
      (match runPhase1 fsa l2 with
       | (fs2, tm2, ok) => (fs2, tma ++ tm2, ok)) := by
  rw [runPhase1_append, h1]

theorem runPhase2_append_ok {srcs : Finset String} {force : Bool} {fs fsa : FS}
    {l1 l2 : List ((String × String) × Bool)} {s1 : Nat}
    (h1 : runPhase2 srcs force fs l1 = (fsa, s1, true)) :
    runPhase2 srcs force fs (l1 ++ l2) =
      (match runPhase2 srcs force fsa l2 with
       | (fs2, s2, ok) => (fs2, s1 + s2, ok)) := by
  rw [runPhase2_append, h1]

theorem runPhase1_ok_split {fs fsk : FS} {l1 l2 : List ((String × String) × String × Bool)}
    {tmk : List (String × String)}
    (h : runPhase1 fs (l1 ++ l2) = (fsk, tmk, true)) :
    ∃ fsa tma tmb, runPhase1 fs l1 = (fsa, tma, true) ∧
      runPhase1 fsa l2 = (fsk, tmb, true) := by
  rw [runPhase1_append] at h
  cases h1 : runPhase1 fs l1 with
  | mk fsa pa =>
    obtain ⟨tma, oka⟩ := pa
    rw [h1] at h
    cases oka with
    | false =>
      have h' : ((fsa, tma, false) : FS × List (String × String) × Bool) = (fsk, tmk, true) := h
      injection h' with hA h''
      injection h'' with hB hC
      exact Bool.noConfusion hC
    | true =>
      have h0 : (match runPhase1 fsa l2 with
          | (fs2, tm2, ok) => ((fs2, tma ++ tm2, ok) : FS × List (String × String) × Bool)) =
          (fsk, tmk, true) := h
      cases h2 : runPhase1 fsa l2 with
      | mk fsb pb =>
        obtain ⟨tmb, okb⟩ := pb
        rw [h2] at h0
        have h' : ((fsb, tma ++ tmb, okb) : FS × List (String × String) × Bool) =
            (fsk, tmk, true) := h0
        injection h' with hA h''
        injection h'' with hB hC
        subst hA
        subst hC
        exact ⟨fsa, tma, tmb, rfl, h2⟩

theorem runPhase1_ok_cons {fs fsk : FS} {a : (String × String) × String × Bool}
    {l : List ((String × String) × String × Bool)} {tmk : List (String × String)}
    (h : runPhase1 fs (a :: l) = (fsk, tmk, true)) :
    ∃ fsb tmb, renameStep fs a.1.1 a.2.1 a.2.2 = some fsb ∧
      runPhase1 fsb l = (fsk, tmb, true) := by
  obtain ⟨p, tmp, fail⟩ := a
  cases hstep : renameStep fs p.1 tmp fail with
  | none =>
    rw [runPhase1_cons_none hstep] at h
    injection h with hA h'
    injection h' with hB hC
    exact Bool.noConfusion hC
  | some fs1 =>
    rw [runPhase1_cons_some hstep] at h
    cases h1 : runPhase1 fs1 l with
    | mk fsa pa =>
      obtain ⟨tma, oka⟩ := pa
      rw [h1] at h
      have h' : ((fsa, (tmp, p.2) :: tma, oka) : FS × List (String × String) × Bool) =
          (fsk, tmk, true) := h
      injection h' with hA h''
      injection h'' with hB hC
      subst hA
      subst hC
      exact ⟨fs1, tma, rfl, h1⟩

theorem perform_renames_live {fs : FS} {mapping : List (String × String)} {force : Bool}
    {tmps : List String} {o1 o2 : List Bool}
    (h1 : (mapping.map Prod.snd).Nodup)
    (h2 : ∀ p ∈ mapping, ¬(p.2 ∈ fs ∧ p.2 ∉ (mapping.map Prod.fst).toFinset ∧ force = false)) :
    perform_renames fs mapping false force tmps o1 o2 =
      Except.ok (livePhases fs (mapping.map Prod.fst).toFinset force mapping tmps o1 o2) := by
  unfold perform_renames
  have hdup : ¬ (mapping.map Prod.snd).length ≠ (mapping.map Prod.snd).dedup.length := by
    rw [List.dedup_eq_self.mpr h1]
    omega
  have hany : (mapping.any fun p =>
      decide (p.2 ∈ fs) && decide (p.2 ∉ (mapping.map Prod.fst).toFinset) && !force) = false := by
    rw [← Bool.not_eq_true, List.any_eq_true]
    rintro ⟨p, hp, hcond⟩
    simp only [Bool.and_eq_true, decide_eq_true_eq, Bool.not_eq_true'] at hcond
    exact h2 p hp ⟨hcond.1.1, hcond.1.2, hcond.2⟩
  rw [if_neg hdup, if_neg (by simp only [hany]; exact Bool.false_ne_true),
    if_neg (by simp)]

theorem livePhases_p1_ok {fs fs1 : FS} {srcs : Finset String} {force : Bool}
    {mapping : List (String × String)} {tmps : List String} {o1 o2 : List Bool}
    {temp_map : List (String × String)}
    (h : runPhase1 fs (mapping.zip (tmps.zip o1)) = (fs1, temp_map, true)) :
    livePhases fs srcs force mapping tmps o1 o2 =
      (match runPhase2 srcs force fs1 (temp_map.zip o2) with
       | (fs2, succ, true) => (fs2, succ, 0)
       | (fs2, succ, false) => (fs2, succ, mapping.length - succ)) := by
  unfold livePhases
  rw [h]

theorem livePhases_p1_fail {fs fs1 : FS} {srcs : Finset String} {force : Bool}
    {mapping : List (String × String)} {tmps : List String} {o1 o2 : List Bool}
    {tm : List (String × String)}
    (h : runPhase1 fs (mapping.zip (tmps.zip o1)) = (fs1, tm, false)) :
    livePhases fs srcs force mapping tmps o1 o2 = (fs1, 0, mapping.length) := by
  unfold livePhases
  rw [h]

theorem map_tmp_of_zip : ∀ (m : List (String × String)) (t : List String) (o : List Bool),
    t.length = m.length → o.length = m.length →
    (m.zip (t.zip o)).map (fun q => q.2.1) = t := by
  intro m
  induction m with
  | nil =>
    intro t o h1 h2
    cases t with
    | nil => rfl
    | cons a t => simp at h1
  | cons p m ih =>
    intro t o h1 h2
    cases t with
    | nil => simp at h1
    | cons a t =>
      cases o with
      | nil => simp at h2
      | cons b o =>
        simp only [List.zip_cons_cons, List.map_cons]
        rw [ih t o (by simpa using h1) (by simpa using h2)]

theorem map_fst_fst_zip : ∀ (t : List (String × String)) (o : List Bool),
    t.length ≤ o.length →
    (t.zip o).map (fun w => w.1.1) = t.map Prod.fst := by
  intro t
  induction t with
  | nil => intro o h; rfl
  | cons a t ih =>
    intro o h
    cases o with
    | nil => simp at h
    | cons b o =>
      simp only [List.zip_cons_cons, List.map_cons]
      rw [ih o (by simpa using h)]

/-- C6: failure semantics of the live two-phase rename.  For every mapping
executed live that passes the pre-flight checks — including mappings whose
sources and destinations overlap, such as swaps — with fresh
pairwise-distinct temporary names (as the uuid-suffixed temporaries are):
(A) if the rename call at any position of phase 1 raises, `perform_renames`
returns the filesystem exactly as that phase left it with counts
`(0, len(mapping))`, and every already-completed temporary rename is left in
place (the temp name exists, the original source name does not — no
rollback); (B) if phase 1 completes and the rename call at any position of
phase 2 raises after `s` successes, `perform_renames` returns the filesystem
as it stands with counts `(s, len(mapping) - s)`, the not-yet-processed
temporary files are still present under their temporary names, and no source
name is restored by rollback: a source name can reappear only as the
destination of a completed phase-2 rename, so any source that is not also a
mapping destination stays absent. -/
theorem midbatch_failure_counts_no_rollback
    (fs : FS) (mapping : List (String × String)) (force : Bool)
    (tmps : List String) (o1 o2 : List Bool)
    (hnodup : (mapping.map Prod.snd).Nodup)
    (hclob : ∀ p ∈ mapping, ¬(p.2 ∈ fs ∧ p.2 ∉ (mapping.map Prod.fst).toFinset ∧ force = false))
    (hlen1 : tmps.length = mapping.length) (hlen2 : o1.length = mapping.length)
    (hlen3 : o2.length = mapping.length)
    (htn : tmps.Nodup)
    (hts : ∀ t ∈ tmps, ∀ p ∈ mapping, t ≠ p.1 ∧ t ≠ p.2) :
    (∀ done x rest fsk tmk,
      mapping.zip (tmps.zip o1) = done ++ x :: rest →
      runPhase1 fs done = (fsk, tmk, true) →
      renameStep fsk x.1.1 x.2.1 x.2.2 = none →
      perform_renames fs mapping false force tmps o1 o2 =
        Except.ok (fsk, 0, mapping.length) ∧
      ∀ q ∈ done, q.2.1 ∈ fsk ∧ q.1.1 ∉ fsk) ∧
    (∀ fs1 temp_map done2 y rest2 fsi s,
      runPhase1 fs (mapping.zip (tmps.zip o1)) = (fs1, temp_map, true) →
      temp_map.zip o2 = done2 ++ y :: rest2 →
      runPhase2 (mapping.map Prod.fst).toFinset force fs1 done2 = (fsi, s, true) →
      ((y.1.2 ∈ fsi ∧ y.1.2 ∉ (mapping.map Prod.fst).toFinset ∧ force = false) ∨
        renameStep fsi y.1.1 y.1.2 y.2 = none) →
      perform_renames fs mapping false force tmps o1 o2 =
        Except.ok (fsi, s, mapping.length - s) ∧
      (∀ q ∈ y :: rest2, q.1.1 ∈ fsi) ∧
      (∀ p ∈ mapping, (∀ q ∈ mapping, p.1 ≠ q.2) → p.1 ∉ fsi)) := by
  have hperf : perform_renames fs mapping false force tmps o1 o2 =
      Except.ok (livePhases fs (mapping.map Prod.fst).toFinset force mapping tmps o1 o2) :=
    perform_renames_live hnodup hclob
  constructor
  · -- Part A: failure inside phase 1
    intro done x rest fsk tmk hsplit hdone hfailstep
    obtain ⟨xp, xtmp, xfail⟩ := x
    have hp1 : runPhase1 fs (mapping.zip (tmps.zip o1)) = (fsk, tmk, false) := by
      rw [hsplit, runPhase1_append_ok hdone, runPhase1_cons_none hfailstep]
      show ((fsk, tmk ++ [], false) : FS × List (String × String) × Bool) = (fsk, tmk, false)
      rw [List.append_nil]
    refine ⟨by rw [hperf, livePhases_p1_fail hp1], ?_⟩
    intro q hq
    obtain ⟨qp, qtmp, qfail⟩ := q
    obtain ⟨d1, d2, hdsplit⟩ := List.append_of_mem hq
    rw [hdsplit] at hdone
    obtain ⟨fsa, tma, tmb, hda, hdb⟩ := runPhase1_ok_split hdone
    obtain ⟨fsb, tmc, hstep, hdc⟩ := runPhase1_ok_cons hdb
    have hqpairs : ((qp, qtmp, qfail) : (String × String) × String × Bool) ∈
        mapping.zip (tmps.zip o1) := by
      rw [hsplit]
      exact List.mem_append_left _ hq
    have hqm : qp ∈ mapping := (List.of_mem_zip hqpairs).1
    have hqt : qtmp ∈ tmps := (List.of_mem_zip (List.of_mem_zip hqpairs).2).1
    have hrmem : ∀ r ∈ d2, r ∈ mapping.zip (tmps.zip o1) := by
      intro r hr
      rw [hsplit]
      refine List.mem_append_left _ ?_
      rw [hdsplit]
      exact List.mem_append_right _ (List.mem_cons_of_mem _ hr)
    constructor
    · have h1 : qtmp ∈ fsb := by
        rw [renameStep_some_eq hstep]
        exact Finset.mem_insert_self _ _
      refine runPhase1_mem_keep hdc h1 ?_
      intro r hr
      obtain ⟨rp, rtmp, rfail⟩ := r
      exact Ne.symm (hts qtmp hqt rp (List.of_mem_zip (hrmem _ hr)).1).1
    · have h1 : qp.1 ∉ fsb := by
        rw [renameStep_some_eq hstep]
        intro hc
        rcases Finset.mem_insert.mp hc with hc | hc
        · exact (hts qtmp hqt qp hqm).1 hc.symm
        · exact (Finset.mem_erase.mp hc).1 rfl
      refine runPhase1_mem_out hdc h1 ?_
      intro r hr
      obtain ⟨rp, rtmp, rfail⟩ := r
      exact (hts rtmp (List.of_mem_zip (List.of_mem_zip (hrmem _ hr)).2).1 qp hqm).1
  · -- Part B: failure inside phase 2
    intro fs1 temp_map done2 y rest2 fsi s hph1 hsplit2 hdone2 hfail
    obtain ⟨⟨ytmp, ydst⟩, yfail⟩ := y
    have htm_shape := runPhase1_ok_tm hph1
    have hlzip : (tmps.zip o1).length = mapping.length := by
      rw [List.length_zip, hlen1, hlen2]
      omega
    have htm_len : temp_map.length = mapping.length := by
      rw [htm_shape, List.length_map, List.length_zip, hlzip]
      omega
    have hfst : temp_map.map Prod.fst = tmps := by
      rw [htm_shape, List.map_map]
      exact map_tmp_of_zip mapping tmps o1 hlen1 hlen2
    have hLfst : (temp_map.zip o2).map (fun w => w.1.1) = tmps := by
      rw [map_fst_fst_zip temp_map o2 (by rw [hlen3, htm_len]), hfst]
    have hLnodup : (((temp_map.zip o2)).map (fun w => w.1.1)).Nodup := by
      rw [hLfst]
      exact htn
    have hLdisj : (done2.map (fun w => w.1.1)).Disjoint
        ((((⟨ytmp, ydst⟩, yfail) : (String × String) × Bool) :: rest2).map
          (fun w => w.1.1)) := by
      rw [hsplit2, List.map_append] at hLnodup
      exact List.disjoint_of_nodup_append hLnodup
    have hdisjA : ∀ q ∈ mapping.zip (tmps.zip o1), ∀ r ∈ mapping.zip (tmps.zip o1),
        r.1.1 ≠ q.2.1 := by
      intro q hq r hr
      obtain ⟨qp, qtmp, qfail⟩ := q
      obtain ⟨rp, rtmp, rfail⟩ := r
      exact Ne.symm (hts qtmp (List.of_mem_zip (List.of_mem_zip hq).2).1 rp
        (List.of_mem_zip hr).1).1
    have hdisjB : ∀ q ∈ mapping.zip (tmps.zip o1), ∀ r ∈ mapping.zip (tmps.zip o1),
        r.2.1 ≠ q.1.1 := by
      intro q hq r hr
      obtain ⟨qp, qtmp, qfail⟩ := q
      obtain ⟨rp, rtmp, rfail⟩ := r
      exact (hts rtmp (List.of_mem_zip (List.of_mem_zip hr).2).1 qp
        (List.of_mem_zip hq).1).1
    have htmp_in_fs1 : ∀ w ∈ temp_map, w.1 ∈ fs1 := by
      intro w hw
      rw [htm_shape] at hw
      obtain ⟨r, hr, hrw⟩ := List.mem_map.mp hw
      have hin := runPhase1_tmp_in hph1 hdisjA r hr
      rw [← hrw]
      exact hin
    have hdst_of_tm : ∀ w ∈ temp_map, ∃ p ∈ mapping, w.2 = p.2 := by
      intro w hw
      rw [htm_shape] at hw
      obtain ⟨r, hr, hrw⟩ := List.mem_map.mp hw
      exact ⟨r.1, (List.of_mem_zip (by exact hr : (r.1, r.2) ∈ _)).1, by rw [← hrw]⟩
    have hcons : runPhase2 (mapping.map Prod.fst).toFinset force fsi
        ((((ytmp, ydst) : String × String), yfail) :: rest2) = (fsi, 0, false) := by
      rcases hfail with hf | hf
      · exact runPhase2_cons_chk hf _
      · by_cases hchk : ydst ∈ fsi ∧ ydst ∉ (mapping.map Prod.fst).toFinset ∧ force = false
        · exact runPhase2_cons_chk hchk _
        · exact runPhase2_cons_none hchk hf _
    have hp2 : runPhase2 (mapping.map Prod.fst).toFinset force fs1 (temp_map.zip o2) =
        (fsi, s, false) := by
      rw [hsplit2, runPhase2_append_ok hdone2, hcons]
      show ((fsi, s + 0, false) : FS × Nat × Bool) = (fsi, s, false)
      rw [Nat.add_zero]
    refine ⟨?_, ?_, ?_⟩
    · rw [hperf, livePhases_p1_ok hph1, hp2]
    · intro q hq
      have hqL : q ∈ temp_map.zip o2 := by
        rw [hsplit2]
        exact List.mem_append_right _ hq
      obtain ⟨qtd, qfail2⟩ := q
      have hq1 : qtd.1 ∈ fs1 :=
        htmp_in_fs1 qtd (List.of_mem_zip hqL).1
      refine runPhase2_mem_keep hdone2 hq1 ?_
      intro z hz hzq
      exact hLdisj (List.mem_map.mpr ⟨z, hz, hzq⟩)
        (List.mem_map.mpr ⟨(qtd, qfail2), hq, rfl⟩)
    · intro p hp hpd
      have hmfst : (mapping.zip (tmps.zip o1)).map Prod.fst = mapping :=
        List.map_fst_zip mapping (tmps.zip o1) (by rw [hlzip])
      have : p ∈ (mapping.zip (tmps.zip o1)).map Prod.fst := by rw [hmfst]; exact hp
      obtain ⟨r, hr, hrp⟩ := List.mem_map.mp this
      have hout1 : p.1 ∉ fs1 := by
        rw [← hrp]
        exact runPhase1_src_out hph1 hdisjB r hr
      refine runPhase2_mem_out hdone2 hout1 ?_
      intro z hz
      obtain ⟨ztd, zfail⟩ := z
      have hzL : ((ztd, zfail) : (String × String) × Bool) ∈ temp_map.zip o2 := by
        rw [hsplit2]
        exact List.mem_append_left _ hz
      obtain ⟨q', hq'm, hq'd⟩ := hdst_of_tm ztd (List.of_mem_zip hzL).1
      show ztd.2 ≠ p.1
      rw [hq'd]
      exact Ne.symm (hpd q' hq'm)

/-- Witness for C6: on `fs = {a}` with mapping `a->b, a->c` (the second
source rename necessarily raises, since `a` was already moved to `t1`),
the executor returns the filesystem `{t1}` with counts `(0, 2)` and the
completed temp rename `a -> t1` is not rolled back. -/
theorem midbatch_failure_counts_no_rollback_witness :
    perform_renames ({"a"} : Finset String) [("a", "b"), ("a", "c")] false false
        ["t1", "t2"] [false, false] [false, false] =
      Except.ok (({"t1"} : Finset String), 0, 2) ∧
    ∀ q ∈ ([((("a", "b") : String × String), ("t1", false))] :
        List ((String × String) × String × Bool)),
      q.2.1 ∈ ({"t1"} : Finset String) ∧ q.1.1 ∉ ({"t1"} : Finset String) :=
  (midbatch_failure_counts_no_rollback ({"a"} : Finset String) [("a", "b"), ("a", "c")]
      false ["t1", "t2"] [false, false] [false, false]
      (by decide) (by decide) (by decide) (by decide) (by decide) (by decide)
      (by decide)).1
    [((("a", "b") : String × String), ("t1", false))] ((("a", "c"), ("t2", false)))
    [] ({"t1"} : Finset String) [("t1", "b")]
    (by decide) (by decide) (by decide)
